import Mathlib

/-!
Verification of the fleet-simulation core: a shallow embedding of the road-network
generator, the Dijkstra router and the vehicle kinematic update, with theorems about
the published behavioural claims.

Modelling conventions:
* Go `float64` values are modelled by `ℚ`.  All claim-relevant arithmetic
  (progress increments, tier speeds, clamps) is exact in `ℚ`.
* `math.Sqrt` is modelled by `ratSqrt`, a computable rational square root that is
  exact on perfect-square rationals (all inputs evaluated by the theorems below are
  perfect squares) and nonnegative everywhere, mirroring `math.Sqrt` on the
  nonnegative reals.  `math.Log` and `math.Pi` (used only for the RGG radius) have
  no exact rational values and are taken as parameters of the generation
  environment.
* Go maps are modelled as insertion-ordered association lists; Go's map iteration
  order is unspecified, the list order stands for one admissible iteration order.
* The process-global `math/rand/v2` generator and `uuid.New()` are modelled as
  input streams in a `GenEnv`; `rand.IntN n` is `ints i % n`.
* Nil-pointer dereferences (which panic in Go) are modelled by a distinguished
  `panicked` outcome, kept separate from a returned `error`.
-/

namespace FleetSim

/-- Rational square root: exact on perfect-square rationals, nonnegative everywhere.
Models `math.Sqrt` for the evaluation points used in this development. -/
def ratSqrt (q : ℚ) : ℚ :=
  if q ≤ 0 then 0 else (Nat.sqrt q.num.toNat : ℚ) / (Nat.sqrt q.den : ℚ)

theorem ratSqrt_nonneg (q : ℚ) : 0 ≤ ratSqrt q := by
  unfold ratSqrt
  split
  · exact le_refl 0
  · positivity

/-- Geometry: `entities.Vector2D`. -/
structure Vector2D where
  x : ℚ
  y : ℚ
deriving DecidableEq, Repr

/-- Euclidean distance between two points, as in `distance` of the generator. -/
def distance (a b : Vector2D) : ℚ :=
  ratSqrt ((a.x - b.x) * (a.x - b.x) + (a.y - b.y) * (a.y - b.y))

/-- `clamp` from vehicle-move.go. -/
def clamp (value min max : ℚ) : ℚ :=
  if value < min then min else if value > max then max else value

/-- Association-list model of a Go map: first-match lookup. -/
def mapGet {α : Type} (m : List (String × α)) (k : String) : Option α :=
  match m with
  | [] => none
  | (k', v) :: rest => if k' = k then some v else mapGet rest k

/-- Association-list model of a Go map: replace-or-append insertion, keeping
insertion order as the iteration order. -/
def mapSet {α : Type} (m : List (String × α)) (k : String) (v : α) : List (String × α) :=
  match m with
  | [] => [(k, v)]
  | (k', v') :: rest => if k' = k then (k', v) :: rest else (k', v') :: mapSet rest k v

/-- `entities.RoadConditions` (the `LastUpdated` timestamp is irrelevant to any
claim and omitted). -/
structure RoadConditions where
  congestion : ℚ
  weatherMultiplier : ℚ
  effectiveSpeedLimit : ℚ
deriving DecidableEq, Repr

/-- `entities.MapEdge`.  The Go field `From`/`To` are Lean keywords, rendered
`fromId`/`toId`; `Conditions` is a nullable pointer, rendered `Option`. -/
structure MapEdge where
  id : String
  fromId : String
  toId : String
  length : ℚ
  baseSpeedLimit : ℚ
  surfaceQuality : ℚ
  bidirectional : Bool
  conditions : Option RoadConditions
deriving DecidableEq, Repr

/-- `entities.MapNode`: `Connections` is a `map[string]bool`. -/
structure MapNode where
  id : String
  position : Vector2D
  ntype : String
  connections : List (String × Bool)
deriving DecidableEq, Repr

/-- `entities.MapGraph`. -/
structure MapGraph where
  nodes : List (String × MapNode)
  edges : List (String × MapEdge)
deriving DecidableEq, Repr

/-- `entities.Route` as produced by the router. -/
structure Route where
  edges : List String
  startNode : String
  endNode : String
  totalDistance : ℚ
deriving DecidableEq, Repr

/-- `entities.VehicleStatus`. -/
inductive VehicleStatus where
  | idle
  | moving
  | stopped
  | arrived
  | breakdown
deriving DecidableEq, Repr

/-- `entities.AssignedRoute`; timestamps are rational instants. -/
structure AssignedRoute where
  edges : List String
  currentEdgeIndex : Nat
  currentNode : String
  targetNode : String
  startNode : String
  endNode : String
  startedAt : ℚ
  completedAt : Option ℚ
deriving DecidableEq, Repr

/-- `entities.VehicleState`. -/
structure VehicleState where
  currentPosition : Vector2D
  velocity : Vector2D
  currentEdge : String
  progressOnEdge : ℚ
  status : VehicleStatus
  lastUpdateTime : ℚ
deriving DecidableEq, Repr

/-- `entities.Vehicle` (mutex and stop channel are engine plumbing, not state). -/
structure Vehicle where
  id : String
  vtype : String
  state : VehicleState
  route : Option AssignedRoute
deriving DecidableEq, Repr

/-- `interpolatePosition` from vehicle-move.go. -/
def interpolatePosition (fromN toN : MapNode) (progress : ℚ) : Vector2D :=
  { x := fromN.position.x + (toN.position.x - fromN.position.x) * progress
  , y := fromN.position.y + (toN.position.y - fromN.position.y) * progress }

/-- `calculateVelocity` from vehicle-move.go. -/
def calculateVelocity (fromN toN : MapNode) (speed : ℚ) : Vector2D :=
  let dx := toN.position.x - fromN.position.x
  let dy := toN.position.y - fromN.position.y
  let d := distance fromN.position toN.position
  if d = 0 then { x := 0, y := 0 }
  else { x := dx / d * speed, y := dy / d * speed }

/-- Outcome of one call of `UpdateVehiclePosition`: a normal return, the returned
"Edge not found" error, or a Go nil-pointer panic. -/
inductive UpdateResult where
  | ok (v : Vehicle)
  | err (v : Vehicle)
  | panicked
deriving DecidableEq, Repr

/-- Shared tail of `UpdateVehiclePosition` (lines 79-93): position interpolation,
velocity, timestamps and the moving-status update.  Looking up a node absent from
the graph dereferences a nil pointer in Go, modelled by `panicked`.  Inline Go
`match`es on lookups are rendered with `Option.elim` throughout. -/
def finishMove (g : MapGraph) (v : Vehicle) (edge : MapEdge) (speed now : ℚ) : UpdateResult :=
  (mapGet g.nodes edge.fromId).elim .panicked fun fromNode =>
  (mapGet g.nodes edge.toId).elim .panicked fun toNode =>
  let progress := clamp v.state.progressOnEdge 0 1
  .ok { v with state := { v.state with
          currentPosition := interpolatePosition fromNode toNode progress
          velocity := calculateVelocity fromNode toNode speed
          lastUpdateTime := now
          status := if v.state.status = .arrived then v.state.status else .moving } }

/-- `UpdateVehiclePosition` from vehicle-move.go, advancing a vehicle by `delta`
seconds at instant `now`. -/
def UpdateVehiclePosition (v : Vehicle) (g : MapGraph) (delta now : ℚ) : UpdateResult :=
  v.route.elim (.ok v) fun route =>
  if route.completedAt ≠ none then
    .ok { v with state := { v.state with status := .arrived } }
  else if route.edges.length ≤ route.currentEdgeIndex then
    (mapGet g.nodes route.endNode).elim .panicked fun endNode =>
    .ok { v with
      route := some { route with completedAt := some now }
      state := { v.state with
        status := .arrived
        velocity := { x := 0, y := 0 }
        currentPosition := endNode.position } }
  else
    (mapGet g.edges (route.edges.getD route.currentEdgeIndex "")).elim (.err v) fun edge =>
    edge.conditions.elim .panicked fun cond =>
    let speed := if cond.effectiveSpeedLimit ≤ 0 then edge.baseSpeedLimit
                 else cond.effectiveSpeedLimit
    let progressIncrement := speed * delta / edge.length
    let p1 := v.state.progressOnEdge + progressIncrement
    if p1 ≥ 999999 / 1000000 then
      let route1 := { route with
        currentNode := route.targetNode
        currentEdgeIndex := route.currentEdgeIndex + 1 }
      if route1.currentEdgeIndex < route.edges.length then
        let nextId := route.edges.getD route1.currentEdgeIndex ""
        (mapGet g.edges nextId).elim
          (finishMove g { v with
              route := some route1
              state := { v.state with progressOnEdge := 1, currentEdge := "" } }
            edge speed now)
          (fun nextEdge =>
            finishMove g { v with
                route := some { route1 with targetNode := nextEdge.toId }
                state := { v.state with progressOnEdge := 0, currentEdge := nextId } }
              nextEdge speed now)
      else
        (mapGet g.nodes route.endNode).elim .panicked fun endNode =>
        .ok { v with
          route := some { route1 with completedAt := some now }
          state := { v.state with
            status := .arrived
            velocity := { x := 0, y := 0 }
            progressOnEdge := 1
            currentPosition := endNode.position } }
    else
      finishMove g { v with state := { v.state with progressOnEdge := p1 } }
        edge speed now

/-- Does the vehicle carry a completed route?  This is the exit test of the
worker loop (vehicle-move.go line 257). -/
def completedFlag (v : Vehicle) : Bool :=
  v.route.elim false fun r => r.completedAt.isSome

/-- How the worker loop body reacts to an update outcome: a returned error is
ignored (the `if err != nil` block is empty), a panic kills the goroutine. -/
def tickOutcome : UpdateResult → Option (Vehicle × Bool)
  | .ok w => some (w, completedFlag w)
  | .err w => some (w, completedFlag w)
  | .panicked => none

/-- One `ticker.C` iteration of the per-vehicle worker loop in
`RunVehicleGoroutine` (vehicle-move.go lines 240-259): run the kinematic update,
ignore a returned error, and report whether the goroutine returns because the
route is complete.  A Go panic is `none`. -/
def runVehicleTickBody (v : Vehicle) (g : MapGraph) (dt now : ℚ) : Option (Vehicle × Bool) :=
  tickOutcome (UpdateVehiclePosition v g dt now)

/-- Extract the vehicle after a test-harness call of `UpdateVehiclePosition`
(the scenario tests loop over the call and assert no error occurred). -/
def resultVehicle : UpdateResult → Vehicle → Vehicle
  | .ok w, _ => w
  | .err w, _ => w
  | .panicked, v => v

/-- Road conditions used by the multi-edge scenario: effective speed 10. -/
def condS10 : RoadConditions :=
  { congestion := 0, weatherMultiplier := 1, effectiveSpeedLimit := 10 }

/-- A node at the origin.  Positions are irrelevant to the route bookkeeping the
scenarios check; co-locating the nodes keeps the geometry trivial while the edge
`length` attributes stay 100 as the scenarios require. -/
def mkNode0 (i : String) : MapNode :=
  { id := i, position := { x := 0, y := 0 }, ntype := "intersection", connections := [] }

def edgeAB : MapEdge :=
  { id := "A-B", fromId := "A", toId := "B", length := 100, baseSpeedLimit := 10
  , surfaceQuality := 0.95, bidirectional := true, conditions := some condS10 }

def edgeBC : MapEdge :=
  { id := "B-C", fromId := "B", toId := "C", length := 100, baseSpeedLimit := 10
  , surfaceQuality := 0.95, bidirectional := true, conditions := some condS10 }

/-- The two-edge scenario graph: route A-B then B-C, both of length 100. -/
def gScenario : MapGraph :=
  { nodes := [("A", mkNode0 "A"), ("B", mkNode0 "B"), ("C", mkNode0 "C")]
  , edges := [("A-B", edgeAB), ("B-C", edgeBC)] }

/-- Scenario vehicle mid-route: on edge `ce` (route index `idx`), having passed
`cn`, heading for `tn`, with progress `p`. -/
def vAt (idx : Nat) (cn tn ce : String) (p : ℚ) : Vehicle :=
  { id := "tracer", vtype := "car"
  , state := { currentPosition := { x := 0, y := 0 }, velocity := { x := 0, y := 0 }
             , currentEdge := ce, progressOnEdge := p, status := .moving, lastUpdateTime := 0 }
  , route := some { edges := ["A-B", "B-C"], currentEdgeIndex := idx, currentNode := cn
                  , targetNode := tn, startNode := "A", endNode := "C", startedAt := 0
                  , completedAt := none } }

/-- The scenario vehicle after completing the route at C. -/
def vDone : Vehicle :=
  { id := "tracer", vtype := "car"
  , state := { currentPosition := { x := 0, y := 0 }, velocity := { x := 0, y := 0 }
             , currentEdge := "B-C", progressOnEdge := 1, status := .arrived, lastUpdateTime := 0 }
  , route := some { edges := ["A-B", "B-C"], currentEdgeIndex := 2, currentNode := "C"
                  , targetNode := "C", startNode := "A", endNode := "C", startedAt := 0
                  , completedAt := some 0 } }

/-- One scenario tick: `dt = 1.0`. -/
def scenarioStep (v : Vehicle) : Vehicle :=
  resultVehicle (UpdateVehiclePosition v gScenario 1 0) v

/-- `n` scenario ticks from the start of the route at A. -/
def scenarioIter : Nat → Vehicle
  | 0 => vAt 0 "A" "B" "A-B" 0
  | n + 1 => scenarioStep (scenarioIter n)


theorem scenarioIter_1 : scenarioIter 1 = vAt 0 "A" "B" "A-B" (1/10) := by
  rw [show scenarioIter 1 = scenarioStep (vAt 0 "A" "B" "A-B" 0) from rfl]
  simp [scenarioStep, resultVehicle, UpdateVehiclePosition, finishMove, gScenario, vAt, vDone,
    edgeAB, edgeBC, condS10, mkNode0, mapGet, clamp, interpolatePosition, calculateVelocity,
    distance, ratSqrt]
  norm_num

theorem scenarioIter_2 : scenarioIter 2 = vAt 0 "A" "B" "A-B" (2/10) := by
  rw [show scenarioIter 2 = scenarioStep (scenarioIter 1) from rfl, scenarioIter_1]
  simp [scenarioStep, resultVehicle, UpdateVehiclePosition, finishMove, gScenario, vAt, vDone,
    edgeAB, edgeBC, condS10, mkNode0, mapGet, clamp, interpolatePosition, calculateVelocity,
    distance, ratSqrt]
  norm_num

theorem scenarioIter_3 : scenarioIter 3 = vAt 0 "A" "B" "A-B" (3/10) := by
  rw [show scenarioIter 3 = scenarioStep (scenarioIter 2) from rfl, scenarioIter_2]
  simp [scenarioStep, resultVehicle, UpdateVehiclePosition, finishMove, gScenario, vAt, vDone,
    edgeAB, edgeBC, condS10, mkNode0, mapGet, clamp, interpolatePosition, calculateVelocity,
    distance, ratSqrt]
  norm_num

theorem scenarioIter_4 : scenarioIter 4 = vAt 0 "A" "B" "A-B" (4/10) := by
  rw [show scenarioIter 4 = scenarioStep (scenarioIter 3) from rfl, scenarioIter_3]
  simp [scenarioStep, resultVehicle, UpdateVehiclePosition, finishMove, gScenario, vAt, vDone,
    edgeAB, edgeBC, condS10, mkNode0, mapGet, clamp, interpolatePosition, calculateVelocity,
    distance, ratSqrt]
  norm_num

theorem scenarioIter_5 : scenarioIter 5 = vAt 0 "A" "B" "A-B" (5/10) := by
  rw [show scenarioIter 5 = scenarioStep (scenarioIter 4) from rfl, scenarioIter_4]
  simp [scenarioStep, resultVehicle, UpdateVehiclePosition, finishMove, gScenario, vAt, vDone,
    edgeAB, edgeBC, condS10, mkNode0, mapGet, clamp, interpolatePosition, calculateVelocity,
    distance, ratSqrt]
  norm_num

theorem scenarioIter_6 : scenarioIter 6 = vAt 0 "A" "B" "A-B" (6/10) := by
  rw [show scenarioIter 6 = scenarioStep (scenarioIter 5) from rfl, scenarioIter_5]
  simp [scenarioStep, resultVehicle, UpdateVehiclePosition, finishMove, gScenario, vAt, vDone,
    edgeAB, edgeBC, condS10, mkNode0, mapGet, clamp, interpolatePosition, calculateVelocity,
    distance, ratSqrt]
  norm_num

theorem scenarioIter_7 : scenarioIter 7 = vAt 0 "A" "B" "A-B" (7/10) := by
  rw [show scenarioIter 7 = scenarioStep (scenarioIter 6) from rfl, scenarioIter_6]
  simp [scenarioStep, resultVehicle, UpdateVehiclePosition, finishMove, gScenario, vAt, vDone,
    edgeAB, edgeBC, condS10, mkNode0, mapGet, clamp, interpolatePosition, calculateVelocity,
    distance, ratSqrt]
  norm_num

theorem scenarioIter_8 : scenarioIter 8 = vAt 0 "A" "B" "A-B" (8/10) := by
  rw [show scenarioIter 8 = scenarioStep (scenarioIter 7) from rfl, scenarioIter_7]
  simp [scenarioStep, resultVehicle, UpdateVehiclePosition, finishMove, gScenario, vAt, vDone,
    edgeAB, edgeBC, condS10, mkNode0, mapGet, clamp, interpolatePosition, calculateVelocity,
    distance, ratSqrt]
  norm_num

theorem scenarioIter_9 : scenarioIter 9 = vAt 0 "A" "B" "A-B" (9/10) := by
  rw [show scenarioIter 9 = scenarioStep (scenarioIter 8) from rfl, scenarioIter_8]
  simp [scenarioStep, resultVehicle, UpdateVehiclePosition, finishMove, gScenario, vAt, vDone,
    edgeAB, edgeBC, condS10, mkNode0, mapGet, clamp, interpolatePosition, calculateVelocity,
    distance, ratSqrt]
  norm_num

theorem scenarioIter_10 : scenarioIter 10 = vAt 1 "B" "C" "B-C" 0 := by
  rw [show scenarioIter 10 = scenarioStep (scenarioIter 9) from rfl, scenarioIter_9]
  simp [scenarioStep, resultVehicle, UpdateVehiclePosition, finishMove, gScenario, vAt, vDone,
    edgeAB, edgeBC, condS10, mkNode0, mapGet, clamp, interpolatePosition, calculateVelocity,
    distance, ratSqrt]
  norm_num

theorem scenarioIter_11 : scenarioIter 11 = vAt 1 "B" "C" "B-C" (1/10) := by
  rw [show scenarioIter 11 = scenarioStep (scenarioIter 10) from rfl, scenarioIter_10]
  simp [scenarioStep, resultVehicle, UpdateVehiclePosition, finishMove, gScenario, vAt, vDone,
    edgeAB, edgeBC, condS10, mkNode0, mapGet, clamp, interpolatePosition, calculateVelocity,
    distance, ratSqrt]
  norm_num

theorem scenarioIter_12 : scenarioIter 12 = vAt 1 "B" "C" "B-C" (2/10) := by
  rw [show scenarioIter 12 = scenarioStep (scenarioIter 11) from rfl, scenarioIter_11]
  simp [scenarioStep, resultVehicle, UpdateVehiclePosition, finishMove, gScenario, vAt, vDone,
    edgeAB, edgeBC, condS10, mkNode0, mapGet, clamp, interpolatePosition, calculateVelocity,
    distance, ratSqrt]
  norm_num

theorem scenarioIter_13 : scenarioIter 13 = vAt 1 "B" "C" "B-C" (3/10) := by
  rw [show scenarioIter 13 = scenarioStep (scenarioIter 12) from rfl, scenarioIter_12]
  simp [scenarioStep, resultVehicle, UpdateVehiclePosition, finishMove, gScenario, vAt, vDone,
    edgeAB, edgeBC, condS10, mkNode0, mapGet, clamp, interpolatePosition, calculateVelocity,
    distance, ratSqrt]
  norm_num

theorem scenarioIter_14 : scenarioIter 14 = vAt 1 "B" "C" "B-C" (4/10) := by
  rw [show scenarioIter 14 = scenarioStep (scenarioIter 13) from rfl, scenarioIter_13]
  simp [scenarioStep, resultVehicle, UpdateVehiclePosition, finishMove, gScenario, vAt, vDone,
    edgeAB, edgeBC, condS10, mkNode0, mapGet, clamp, interpolatePosition, calculateVelocity,
    distance, ratSqrt]
  norm_num

theorem scenarioIter_15 : scenarioIter 15 = vAt 1 "B" "C" "B-C" (5/10) := by
  rw [show scenarioIter 15 = scenarioStep (scenarioIter 14) from rfl, scenarioIter_14]
  simp [scenarioStep, resultVehicle, UpdateVehiclePosition, finishMove, gScenario, vAt, vDone,
    edgeAB, edgeBC, condS10, mkNode0, mapGet, clamp, interpolatePosition, calculateVelocity,
    distance, ratSqrt]
  norm_num

theorem scenarioIter_16 : scenarioIter 16 = vAt 1 "B" "C" "B-C" (6/10) := by
  rw [show scenarioIter 16 = scenarioStep (scenarioIter 15) from rfl, scenarioIter_15]
  simp [scenarioStep, resultVehicle, UpdateVehiclePosition, finishMove, gScenario, vAt, vDone,
    edgeAB, edgeBC, condS10, mkNode0, mapGet, clamp, interpolatePosition, calculateVelocity,
    distance, ratSqrt]
  norm_num

theorem scenarioIter_17 : scenarioIter 17 = vAt 1 "B" "C" "B-C" (7/10) := by
  rw [show scenarioIter 17 = scenarioStep (scenarioIter 16) from rfl, scenarioIter_16]
  simp [scenarioStep, resultVehicle, UpdateVehiclePosition, finishMove, gScenario, vAt, vDone,
    edgeAB, edgeBC, condS10, mkNode0, mapGet, clamp, interpolatePosition, calculateVelocity,
    distance, ratSqrt]
  norm_num

theorem scenarioIter_18 : scenarioIter 18 = vAt 1 "B" "C" "B-C" (8/10) := by
  rw [show scenarioIter 18 = scenarioStep (scenarioIter 17) from rfl, scenarioIter_17]
  simp [scenarioStep, resultVehicle, UpdateVehiclePosition, finishMove, gScenario, vAt, vDone,
    edgeAB, edgeBC, condS10, mkNode0, mapGet, clamp, interpolatePosition, calculateVelocity,
    distance, ratSqrt]
  norm_num

theorem scenarioIter_19 : scenarioIter 19 = vAt 1 "B" "C" "B-C" (9/10) := by
  rw [show scenarioIter 19 = scenarioStep (scenarioIter 18) from rfl, scenarioIter_18]
  simp [scenarioStep, resultVehicle, UpdateVehiclePosition, finishMove, gScenario, vAt, vDone,
    edgeAB, edgeBC, condS10, mkNode0, mapGet, clamp, interpolatePosition, calculateVelocity,
    distance, ratSqrt]
  norm_num

theorem scenarioIter_20 : scenarioIter 20 = vDone := by
  rw [show scenarioIter 20 = scenarioStep (scenarioIter 19) from rfl, scenarioIter_19]
  simp [scenarioStep, resultVehicle, UpdateVehiclePosition, finishMove, gScenario, vAt, vDone,
    edgeAB, edgeBC, condS10, mkNode0, mapGet, clamp, interpolatePosition, calculateVelocity,
    distance, ratSqrt]
  norm_num


/-- C7: when `progressOnEdge` crosses the transition threshold with more route
edges remaining, one call of `UpdateVehiclePosition` advances the route to the
next edge: `currentNode` becomes the previous `targetNode`, `currentEdgeIndex`
increments, `progressOnEdge` resets to 0, `state.currentEdge` becomes the next
edge ID and `targetNode` its `to` endpoint.  On the two-edge scenario route
(edges A-B, B-C of length 100 at speed 10), after 10 ticks of `dt = 1` the
vehicle is at index 1 with `currentNode` B, `targetNode` C, progress 0 and
current edge B-C; after 20 ticks it has arrived. -/
theorem C7_waypoint_transition :
    (∀ (v : Vehicle) (g : MapGraph) (dt now : ℚ) (r : AssignedRoute)
       (e e2 : MapEdge) (c : RoadConditions) (fn tn : MapNode),
      v.route = some r →
      r.completedAt = none →
      r.currentEdgeIndex < r.edges.length →
      mapGet g.edges (r.edges.getD r.currentEdgeIndex "") = some e →
      e.conditions = some c →
      999999 / 1000000 ≤ v.state.progressOnEdge +
        (if c.effectiveSpeedLimit ≤ 0 then e.baseSpeedLimit else c.effectiveSpeedLimit)
          * dt / e.length →
      r.currentEdgeIndex + 1 < r.edges.length →
      mapGet g.edges (r.edges.getD (r.currentEdgeIndex + 1) "") = some e2 →
      mapGet g.nodes e2.fromId = some fn →
      mapGet g.nodes e2.toId = some tn →
      ∃ v' r', UpdateVehiclePosition v g dt now = .ok v' ∧ v'.route = some r' ∧
        r'.currentNode = r.targetNode ∧
        r'.currentEdgeIndex = r.currentEdgeIndex + 1 ∧
        v'.state.progressOnEdge = 0 ∧
        v'.state.currentEdge = r.edges.getD (r.currentEdgeIndex + 1) "" ∧
        r'.targetNode = e2.toId) ∧
    scenarioIter 10 = vAt 1 "B" "C" "B-C" 0 ∧
    scenarioIter 20 = vDone ∧
    vDone.state.status = VehicleStatus.arrived := by
  refine ⟨?_, scenarioIter_10, scenarioIter_20, rfl⟩
  intro v g dt now r e e2 c fn tn hroute hcomp hidx hedge hcond hthresh hmore hnext hfn htn
  rw [UpdateVehiclePosition, hroute]
  simp only [Option.elim]
  rw [if_neg (by simp [hcomp]), if_neg (not_le.mpr hidx), hedge]
  simp only [Option.elim]
  rw [hcond]
  simp only [Option.elim]
  rw [if_pos hthresh, if_pos hmore, hnext]
  simp only [Option.elim, finishMove, hfn, htn]
  exact ⟨_, _, rfl, rfl, rfl, rfl, rfl, rfl, rfl⟩

/-- Witness for C7: the tenth scenario tick is a concrete instance of the
transition property. -/
theorem C7_witness :
    999999 / 1000000 ≤ (9/10 : ℚ) +
      (if condS10.effectiveSpeedLimit ≤ 0 then edgeAB.baseSpeedLimit
       else condS10.effectiveSpeedLimit) * 1 / edgeAB.length ∧
    (∃ v' r', UpdateVehiclePosition (vAt 0 "A" "B" "A-B" (9/10)) gScenario 1 0 = .ok v' ∧
      v'.route = some r' ∧
      r'.currentNode = "B" ∧
      r'.currentEdgeIndex = 0 + 1 ∧
      v'.state.progressOnEdge = 0 ∧
      v'.state.currentEdge = "B-C" ∧
      r'.targetNode = "C") := by
  constructor
  · norm_num [condS10, edgeAB]
  · have h := C7_waypoint_transition.1 (vAt 0 "A" "B" "A-B" (9/10)) gScenario 1 0
      { edges := ["A-B", "B-C"], currentEdgeIndex := 0, currentNode := "A"
      , targetNode := "B", startNode := "A", endNode := "C", startedAt := 0
      , completedAt := none }
      edgeAB edgeBC condS10 (mkNode0 "B") (mkNode0 "C")
      rfl rfl (by decide) rfl rfl (by norm_num [vAt, condS10, edgeAB]) (by decide) rfl rfl rfl
    simpa [vAt, edgeBC] using h

/-- Road conditions for the fallback scenario: effective speed 0. -/
def condC8 : RoadConditions :=
  { congestion := 0, weatherMultiplier := 1, effectiveSpeedLimit := 0 }

/-- Fallback-scenario edge: `baseSpeedLimit = 15`, `effectiveSpeedLimit = 0`,
length 100. -/
def edgeC8 : MapEdge :=
  { id := "A-B", fromId := "A", toId := "B", length := 100, baseSpeedLimit := 15
  , surfaceQuality := 0.95, bidirectional := true, conditions := some condC8 }

def gC8 : MapGraph :=
  { nodes := [("A", mkNode0 "A"), ("B", mkNode0 "B")], edges := [("A-B", edgeC8)] }

def vC8 : Vehicle :=
  { id := "fallback", vtype := "car"
  , state := { currentPosition := { x := 0, y := 0 }, velocity := { x := 0, y := 0 }
             , currentEdge := "A-B", progressOnEdge := 0, status := .moving, lastUpdateTime := 0 }
  , route := some { edges := ["A-B"], currentEdgeIndex := 0, currentNode := "A"
                  , targetNode := "B", startNode := "A", endNode := "B", startedAt := 0
                  , completedAt := none } }

/-- C8: an in-edge advancement uses `conditions.effectiveSpeedLimit`, falling
back to `baseSpeedLimit` whenever the effective limit is non-positive, and adds
`speed * dt / length` to the progress; concretely, one `dt = 1` tick on an edge
with base 15, effective 0 and length 100 yields progress 0.15. -/
theorem C8_speed_fallback :
    (∀ (v : Vehicle) (g : MapGraph) (dt now : ℚ) (r : AssignedRoute)
       (e : MapEdge) (c : RoadConditions) (fn tn : MapNode),
      v.route = some r →
      r.completedAt = none →
      r.currentEdgeIndex < r.edges.length →
      mapGet g.edges (r.edges.getD r.currentEdgeIndex "") = some e →
      e.conditions = some c →
      v.state.progressOnEdge +
        (if c.effectiveSpeedLimit ≤ 0 then e.baseSpeedLimit else c.effectiveSpeedLimit)
          * dt / e.length < 999999 / 1000000 →
      mapGet g.nodes e.fromId = some fn →
      mapGet g.nodes e.toId = some tn →
      ∃ v', UpdateVehiclePosition v g dt now = .ok v' ∧
        v'.state.progressOnEdge = v.state.progressOnEdge +
          (if c.effectiveSpeedLimit ≤ 0 then e.baseSpeedLimit else c.effectiveSpeedLimit)
            * dt / e.length) ∧
    (resultVehicle (UpdateVehiclePosition vC8 gC8 1 0) vC8).state.progressOnEdge = 15/100 := by
  constructor
  · intro v g dt now r e c fn tn hroute hcomp hidx hedge hcond hthresh hfn htn
    rw [UpdateVehiclePosition, hroute]
    simp only [Option.elim]
    rw [if_neg (by simp [hcomp]), if_neg (not_le.mpr hidx), hedge]
    simp only [Option.elim]
    rw [hcond]
    simp only [Option.elim]
    rw [if_neg (not_le.mpr hthresh)]
    simp only [finishMove, hfn, htn, Option.elim]
    exact ⟨_, rfl, rfl⟩
  · simp [resultVehicle, UpdateVehiclePosition, finishMove, gC8, vC8, edgeC8, condC8, mkNode0,
      mapGet, clamp, interpolatePosition, calculateVelocity, distance, ratSqrt]
    norm_num

/-- Witness for C8: the fallback scenario instantiates the in-edge advancement
property with the non-positive effective limit. -/
theorem C8_witness :
    condC8.effectiveSpeedLimit ≤ 0 ∧
    (∃ v', UpdateVehiclePosition vC8 gC8 1 0 = .ok v' ∧
      v'.state.progressOnEdge = 0 +
        (if condC8.effectiveSpeedLimit ≤ 0 then edgeC8.baseSpeedLimit
         else condC8.effectiveSpeedLimit) * 1 / edgeC8.length) := by
  constructor
  · norm_num [condC8]
  · have h := C8_speed_fallback.1 vC8 gC8 1 0
      { edges := ["A-B"], currentEdgeIndex := 0, currentNode := "A"
      , targetNode := "B", startNode := "A", endNode := "B", startedAt := 0
      , completedAt := none }
      edgeC8 condC8 (mkNode0 "A") (mkNode0 "B")
      rfl rfl (by decide) rfl rfl (by norm_num [vC8, condC8, edgeC8]) rfl rfl
    simpa [vC8] using h


/-- The exact situation in which `UpdateVehiclePosition` returns its only error:
an active route whose current edge ID is missing from the edge map. -/
def errCondition (v : Vehicle) (g : MapGraph) : Prop :=
  ∃ r, v.route = some r ∧ r.completedAt = none ∧
    r.currentEdgeIndex < r.edges.length ∧
    mapGet g.edges (r.edges.getD r.currentEdgeIndex "") = none

theorem finishMove_ne_err (g : MapGraph) (v : Vehicle) (e : MapEdge) (s n : ℚ) (w : Vehicle) :
    finishMove g v e s n ≠ .err w := by
  rw [finishMove]
  rcases mapGet g.nodes e.fromId with _ | fn
  · simp
  · rcases mapGet g.nodes e.toId with _ | tn <;> simp

/-- Anatomy of the error return: it occurs exactly under `errCondition`, and it
mutates nothing. -/
theorem update_err_anatomy (v : Vehicle) (g : MapGraph) (dt now : ℚ) :
    (∀ w, UpdateVehiclePosition v g dt now = .err w → w = v ∧ errCondition v g) ∧
    (errCondition v g → UpdateVehiclePosition v g dt now = .err v) := by
  constructor
  · intro w h
    rcases hroute : v.route with _ | r
    · rw [UpdateVehiclePosition, hroute] at h
      simp only [Option.elim] at h
      cases h
    · rw [UpdateVehiclePosition, hroute] at h
      simp only [Option.elim] at h
      rcases hcomp : r.completedAt with _ | t
      · rw [if_neg (by simp [hcomp])] at h
        by_cases hlen : r.edges.length ≤ r.currentEdgeIndex
        · rw [if_pos hlen] at h
          rcases hend : mapGet g.nodes r.endNode with _ | nd <;>
            simp only [hend, Option.elim] at h <;> cases h
        · rw [if_neg hlen] at h
          rcases hedge : mapGet g.edges (r.edges.getD r.currentEdgeIndex "") with _ | e
          · simp only [hedge, Option.elim] at h
            cases h
            exact ⟨rfl, r, hroute, hcomp, not_le.mp hlen, hedge⟩
          · simp only [hedge, Option.elim] at h
            rcases hcond : e.conditions with _ | c
            · simp only [hcond, Option.elim] at h
              cases h
            · simp only [hcond, Option.elim] at h
              by_cases ht : (999999 : ℚ)/1000000 ≤ v.state.progressOnEdge +
                  (if c.effectiveSpeedLimit ≤ 0 then e.baseSpeedLimit
                   else c.effectiveSpeedLimit) * dt / e.length
              · rw [if_pos ht] at h
                by_cases hm : r.currentEdgeIndex + 1 < r.edges.length
                · rw [if_pos hm] at h
                  rcases hnext : mapGet g.edges
                      (r.edges.getD (r.currentEdgeIndex + 1) "") with _ | e2 <;>
                    simp only [hnext, Option.elim] at h <;>
                    exact absurd h (finishMove_ne_err _ _ _ _ _ _)
                · rw [if_neg hm] at h
                  rcases hend : mapGet g.nodes r.endNode with _ | nd <;>
                    simp only [hend, Option.elim] at h <;> cases h
              · rw [if_neg ht] at h
                exact absurd h (finishMove_ne_err _ _ _ _ _ _)
      · rw [if_pos (by simp [hcomp])] at h
        cases h
  · rintro ⟨r, hroute, hcomp, hidx, hmiss⟩
    rw [UpdateVehiclePosition, hroute]
    simp only [Option.elim]
    rw [if_neg (by simp [hcomp]), if_neg (not_le.mpr hidx), hmiss]

/-- C9: `UpdateVehiclePosition` returns a non-nil error exactly when the vehicle
has an uncompleted route whose current edge ID is absent from the graph (under
the claim's precondition that a route past its last edge has its end node in the
graph), and in the error case the vehicle is left completely unchanged. -/
theorem C9_error_characterisation (v : Vehicle) (g : MapGraph) (dt now : ℚ)
    (_hpre : ∀ r, v.route = some r → r.completedAt = none →
      r.edges.length ≤ r.currentEdgeIndex → (mapGet g.nodes r.endNode).isSome) :
    ((∃ w, UpdateVehiclePosition v g dt now = .err w) ↔ errCondition v g) ∧
    (∀ w, UpdateVehiclePosition v g dt now = .err w → w = v) := by
  refine ⟨⟨?_, ?_⟩, ?_⟩
  · rintro ⟨w, hw⟩
    exact ((update_err_anatomy v g dt now).1 w hw).2
  · intro hc
    exact ⟨v, (update_err_anatomy v g dt now).2 hc⟩
  · intro w hw
    exact ((update_err_anatomy v g dt now).1 w hw).1


/-- The empty graph. -/
def gEmpty : MapGraph := { nodes := [], edges := [] }

/-- A moving vehicle whose route references an edge ID absent from the graph. -/
def vMissingEdge : Vehicle :=
  { id := "stray", vtype := "car"
  , state := { currentPosition := { x := 0, y := 0 }, velocity := { x := 0, y := 0 }
             , currentEdge := "ghost-edge", progressOnEdge := 0, status := .moving
             , lastUpdateTime := 0 }
  , route := some { edges := ["ghost-edge"], currentEdgeIndex := 0, currentNode := "A"
                  , targetNode := "B", startNode := "A", endNode := "B", startedAt := 0
                  , completedAt := none } }

/-- C9 witness input check. -/
theorem C9_witness :
    ((∃ w, UpdateVehiclePosition vMissingEdge gEmpty 1 0 = .err w) ↔
      errCondition vMissingEdge gEmpty) ∧
    (∀ w, UpdateVehiclePosition vMissingEdge gEmpty 1 0 = .err w → w = vMissingEdge) := by
  have h := C9_error_characterisation vMissingEdge gEmpty 1 0
    (by intro r hr hcomp hlen
        injection hr with h'
        subst h'
        exact absurd hlen (by decide))
  exact h

/-- C6 counterexample: a worker tick on a vehicle whose current edge is missing
from the graph leaves the vehicle completely unchanged (its status stays
`moving`, not `breakdown`) and does not terminate the worker. -/
theorem C6_counterexample :
    runVehicleTickBody vMissingEdge gEmpty 1 0 = some (vMissingEdge, false) ∧
    vMissingEdge.state.status = VehicleStatus.moving := by
  constructor <;> rfl

/-- C6 amended: the worker body ignores the kinematic-update error (the
`if err != nil` block is empty): the vehicle and its status are left unchanged
and the worker keeps running; it only exits on route completion (or its stop
signal, outside the tick body). -/
theorem C6_error_ignored :
    ∀ (v : Vehicle) (g : MapGraph) (dt now : ℚ) (w : Vehicle),
      UpdateVehiclePosition v g dt now = .err w →
      runVehicleTickBody v g dt now = some (v, false) ∧ w = v := by
  intro v g dt now w h
  obtain ⟨hw, r, hroute, hcomp, -, -⟩ := (update_err_anatomy v g dt now).1 w h
  subst hw
  refine ⟨?_, rfl⟩
  rw [runVehicleTickBody, h, tickOutcome]
  simp [completedFlag, hroute, hcomp]

/-- C6 witness: the missing-edge vehicle instantiates the ignored-error
behaviour. -/
theorem C6_witness :
    UpdateVehiclePosition vMissingEdge gEmpty 1 0 = .err vMissingEdge ∧
    runVehicleTickBody vMissingEdge gEmpty 1 0 = some (vMissingEdge, false) := by
  refine ⟨rfl, ?_⟩
  exact (C6_error_ignored vMissingEdge gEmpty 1 0 vMissingEdge rfl).1


/-- Strict order on `float64` distances where `none` stands for `math.Inf(1)`:
a finite value is below infinity, and infinity is below nothing. -/
def qiLt : Option ℚ → Option ℚ → Prop
  | some a, some b => a < b
  | some _, none => True
  | none, _ => False

instance : (a b : Option ℚ) → Decidable (qiLt a b)
  | some a, some b => inferInstanceAs (Decidable (a < b))
  | some _, none => isTrue trivial
  | none, some _ => isFalse (fun h => h)
  | none, none => isFalse (fun h => h)

/-- Reading the `dist` map: a missing key yields the Go zero value 0.0. -/
def distGet (d : List (String × Option ℚ)) (k : String) : Option ℚ :=
  (mapGet d k).getD (some 0)

/-- `dist[current] + edge.Length`: adding a float to infinity stays infinite. -/
def qiAdd (d : Option ℚ) (w : ℚ) : Option ℚ :=
  d.elim none (fun a => some (a + w))

/-- The argmin scan of the main Dijkstra loop: the unvisited node of strictly
least finite distance, or the empty string if every unvisited node is
unreachable so far. -/
def selectMin (dist : List (String × Option ℚ)) (unvisited : List String) : String :=
  (unvisited.foldl
    (fun best n => if qiLt (distGet dist n) best.2 then (n, distGet dist n) else best)
    ("", none)).1

/-- `findEdge` from the generator utilities: first edge of the map joining the
two endpoints, honouring `Bidirectional` for the reversed orientation. -/
def findEdgeIn : List (String × MapEdge) → String → String → Option MapEdge
  | [], _, _ => none
  | (_, e) :: rest, f, t =>
    if (e.fromId = f ∧ e.toId = t) ∨ (e.bidirectional = true ∧ e.fromId = t ∧ e.toId = f)
    then some e else findEdgeIn rest f t

def findEdge (g : MapGraph) (f t : String) : Option MapEdge :=
  findEdgeIn g.edges f t

/-- Relaxation of one neighbour of the settled node `current`. -/
def relaxNeighbor (g : MapGraph) (current : String)
    (st : List (String × Option ℚ) × List (String × String)) (nb : String) :
    List (String × Option ℚ) × List (String × String) :=
  (findEdge g current nb).elim st fun e =>
    let alt := qiAdd (distGet st.1 current) e.length
    if qiLt alt (distGet st.1 nb) then (mapSet st.1 nb alt, mapSet st.2 nb current) else st

/-- Relax every neighbour of `current` in adjacency order.  `current` is always
a node key when this is reached (a missing key would dereference nil in Go). -/
def relaxAll (g : MapGraph) (dist : List (String × Option ℚ))
    (prev : List (String × String)) (current : String) :
    List (String × Option ℚ) × List (String × String) :=
  (mapGet g.nodes current).elim (dist, prev) fun node =>
    node.connections.foldl (fun st p => relaxNeighbor g current st p.1) (dist, prev)

/-- The main Dijkstra loop.  Each non-breaking iteration removes the selected
node from `unvisited`, so fuel `|unvisited| + 1` never runs out; the loop breaks
when the selection is empty or the goal is selected. -/
def dijkstraLoop (g : MapGraph) (endId : String) :
    Nat → List String → List (String × Option ℚ) → List (String × String) →
    List (String × Option ℚ) × List (String × String)
  | 0, _, dist, prev => (dist, prev)
  | fuel + 1, unvisited, dist, prev =>
    if unvisited = [] then (dist, prev)
    else
      let current := selectMin dist unvisited
      if current = "" then (dist, prev)
      else if current = endId then (dist, prev)
      else
        let st := relaxAll g dist prev current
        dijkstraLoop g endId fuel (unvisited.erase current) st.1 st.2

/-- Path reconstruction through `prev`, prepending as the Go loop does.  The Go
loop has no fuel; with the invariants of the main loop the chain is acyclic, and
a `none` from exhausted fuel mirrors only unreachable states. -/
def buildPathNodes (startId : String) (prev : List (String × String)) :
    Nat → String → List String → Option (List String)
  | 0, _, _ => none
  | fuel + 1, u, acc =>
    if u = startId then some (u :: acc)
    else (mapGet prev u).elim none fun p => buildPathNodes startId prev fuel p (u :: acc)

/-- Resolve consecutive path nodes to edge IDs and accumulate their lengths
(a missing edge is skipped silently, as in the Go loop). -/
def edgesOfPath (g : MapGraph) : List String → List String × ℚ
  | [] => ([], 0)
  | [_] => ([], 0)
  | a :: b :: rest =>
    let t := edgesOfPath g (b :: rest)
    (findEdge g a b).elim t fun e => (e.id :: t.1, e.length + t.2)

/-- `Dijkstra` from map-routing.go: returns a singleton route on success and the
empty slice when no path is found. -/
def Dijkstra (g : MapGraph) (start endId : String) : List Route :=
  let dist0 := mapSet (g.nodes.map (fun p => (p.1, (none : Option ℚ)))) start (some 0)
  let unvisited := g.nodes.map Prod.fst
  let res := dijkstraLoop g endId (unvisited.length + 1) unvisited dist0 []
  (buildPathNodes start res.2 (g.nodes.length + 2) endId []).elim []
    fun pathNodes =>
      let ep := edgesOfPath g pathNodes
      [{ edges := ep.1, startNode := start, endNode := endId, totalDistance := ep.2 }]

/-- C10: for every graph and every ID `x`, `Dijkstra g x x` returns exactly one
route, with no edges, total distance 0 and both endpoints `x` — even when `x` is
not a node of the graph, so such a route does not certify that the endpoint
exists. -/
theorem C10_identity_route (g : MapGraph) (x : String) :
    Dijkstra g x x = [{ edges := [], startNode := x, endNode := x, totalDistance := 0 }] := by
  rw [Dijkstra]
  have hb : ∀ prev, buildPathNodes x prev (g.nodes.length + 2) x [] = some [x] := by
    intro prev
    rw [show g.nodes.length + 2 = (g.nodes.length + 1) + 1 from rfl, buildPathNodes]
    rw [if_pos rfl]
  rw [hb]
  rfl


/-- Non-strict counterpart of `qiLt`. -/
def qiLe (a b : Option ℚ) : Prop := ¬ qiLt b a

theorem qiLe_some_some {a b : ℚ} : qiLe (some a) (some b) ↔ a ≤ b := by
  simp [qiLe, qiLt, not_lt]

theorem qiLe_none_iff {x : Option ℚ} : qiLe none x ↔ x = none := by
  cases x <;> simp [qiLe, qiLt]

theorem qiLe_any_none {x : Option ℚ} : qiLe x none := by
  cases x <;> simp [qiLe, qiLt]

theorem qiLe_refl (a : Option ℚ) : qiLe a a := by
  cases a <;> simp [qiLe, qiLt]

theorem qiLe_trans {a b c : Option ℚ} (h1 : qiLe a b) (h2 : qiLe b c) : qiLe a c := by
  cases a <;> cases b <;> cases c <;>
    simp_all [qiLe, qiLt] <;> linarith

theorem qiLe_of_not_qiLt {a b : Option ℚ} (h : ¬ qiLt a b) : qiLe b a := h

theorem qiLe_some_right {a : Option ℚ} {q : ℚ} (h : qiLe a (some q)) :
    ∃ a', a = some a' ∧ a' ≤ q := by
  cases a with
  | none => cases qiLe_none_iff.mp h
  | some a' => exact ⟨a', rfl, qiLe_some_some.mp h⟩

theorem qiAdd_some (a w : ℚ) : qiAdd (some a) w = some (a + w) := rfl

theorem qiAdd_none (w : ℚ) : qiAdd none w = none := rfl

/-- The node keys of a graph, in map order. -/
def nodeKeys (g : MapGraph) : List String := g.nodes.map Prod.fst

/-- The adjacency keys of a node (empty for a missing node). -/
def connKeys (g : MapGraph) (u : String) : List String :=
  (mapGet g.nodes u).elim [] fun n => n.connections.map Prod.fst

/-- Data-model invariants of the spec (section 3) under which the router claim
is provable: maps keyed consistently, one bidirectional positive-length edge per
unordered endpoint pair, edges matched by adjacency, nonempty node IDs. -/
structure RouterInvariants (g : MapGraph) : Prop where
  nodesNodup : (g.nodes.map Prod.fst).Nodup
  edgesNodup : (g.edges.map Prod.fst).Nodup
  keyIsId : ∀ p ∈ g.edges, Prod.fst p = MapEdge.id (Prod.snd p)
  lenPos : ∀ p ∈ g.edges, 0 < MapEdge.length (Prod.snd p)
  bidir : ∀ p ∈ g.edges, MapEdge.bidirectional (Prod.snd p) = true
  endsInNodes : ∀ p ∈ g.edges,
      MapEdge.fromId (Prod.snd p) ∈ nodeKeys g ∧ MapEdge.toId (Prod.snd p) ∈ nodeKeys g
  edgeAdj : ∀ p ∈ g.edges,
      MapEdge.toId (Prod.snd p) ∈ connKeys g (MapEdge.fromId (Prod.snd p)) ∧
      MapEdge.fromId (Prod.snd p) ∈ connKeys g (MapEdge.toId (Prod.snd p))
  uniquePairs : ∀ p ∈ g.edges, ∀ q ∈ g.edges,
      (MapEdge.fromId (Prod.snd p) = MapEdge.fromId (Prod.snd q) ∧
         MapEdge.toId (Prod.snd p) = MapEdge.toId (Prod.snd q)) ∨
      (MapEdge.fromId (Prod.snd p) = MapEdge.toId (Prod.snd q) ∧
         MapEdge.toId (Prod.snd p) = MapEdge.fromId (Prod.snd q)) → p = q
  idsNonempty : ∀ p ∈ g.nodes, Prod.fst p ≠ ""

/-- A walk in the graph: a chain of edges of the edge map, each traversed in
either direction, leading from one node ID to another. -/
inductive IsWalk (g : MapGraph) : String → String → List MapEdge → Prop
  | nil (x : String) : IsWalk g x x []
  | cons {x y z : String} {es : List MapEdge} (e : MapEdge) (k : String)
      (hmem : (k, e) ∈ g.edges)
      (hstep : e.fromId = x ∧ e.toId = y ∨ e.toId = x ∧ e.fromId = y)
      (tail : IsWalk g y z es) : IsWalk g x z (e :: es)

/-- Total length of a walk. -/
def walkCost (es : List MapEdge) : ℚ := (es.map MapEdge.length).sum

theorem walkCost_nil : walkCost [] = 0 := rfl

theorem walkCost_cons (e : MapEdge) (es : List MapEdge) :
    walkCost (e :: es) = e.length + walkCost es := by
  simp [walkCost]

theorem walkCost_nonneg {g : MapGraph} (hpos : ∀ p ∈ g.edges, 0 < MapEdge.length (Prod.snd p))
    {x y : String} {es : List MapEdge} (h : IsWalk g x y es) : 0 ≤ walkCost es := by
  induction h with
  | nil => simp [walkCost]
  | cons e k hmem hstep tail ih =>
    rw [walkCost_cons]
    have := hpos (k, e) hmem
    linarith


theorem mapGet_mapSet_self {α : Type} (m : List (String × α)) (k : String) (v : α) :
    mapGet (mapSet m k v) k = some v := by
  induction m with
  | nil => simp [mapGet, mapSet]
  | cons p rest ih =>
    by_cases h : p.1 = k
    · simp [mapSet, mapGet, h]
    · simp only [mapSet]
      rw [show (p.1, p.2) = p from rfl, if_neg h]
      simp [mapGet, h, ih]

theorem mapGet_mapSet_ne {α : Type} (m : List (String × α)) (k : String) (v : α)
    {x : String} (h : x ≠ k) : mapGet (mapSet m k v) x = mapGet m x := by
  induction m with
  | nil => simp [mapGet, mapSet, Ne.symm h]
  | cons p rest ih =>
    match p with
    | (k', v') =>
      by_cases hp : k' = k
      · subst hp
        simp [mapSet, mapGet, Ne.symm h]
      · rw [mapSet]
        simp only [if_neg hp]
        by_cases hx : k' = x
        · simp [mapGet, hx]
        · simp [mapGet, hx, ih]

theorem mapGet_mem {α : Type} {m : List (String × α)} {k : String} {v : α}
    (h : mapGet m k = some v) : (k, v) ∈ m := by
  induction m with
  | nil => simp [mapGet] at h
  | cons p rest ih =>
    match p, h with
    | (k', v'), h =>
      rw [mapGet] at h
      by_cases hk : k' = k
      · rw [if_pos hk] at h
        cases h
        subst hk
        exact List.mem_cons_self _ _
      · rw [if_neg hk] at h
        exact List.mem_cons_of_mem _ (ih h)

theorem mem_mapGet {α : Type} {m : List (String × α)} {k : String} {v : α}
    (hnd : (m.map Prod.fst).Nodup) (h : (k, v) ∈ m) : mapGet m k = some v := by
  induction m with
  | nil => simp at h
  | cons p rest ih =>
    match p, hnd with
    | (k', v'), hnd =>
      simp only [List.map_cons, List.nodup_cons] at hnd
      rcases List.mem_cons.mp h with h | h
      · cases h
        simp [mapGet]
      · rw [mapGet]
        have hk : k' ≠ k := by
          intro hk
          exact hnd.1 (hk ▸ (List.mem_map.mpr ⟨(k, v), h, rfl⟩))
        rw [if_neg hk]
        exact ih hnd.2 h

theorem mapGet_isSome_mapSet {α : Type} (m : List (String × α)) (k : String) (v : α)
    (x : String) : (mapGet (mapSet m k v) x).isSome ↔ x = k ∨ (mapGet m x).isSome := by
  by_cases h : x = k
  · subst h
    simp [mapGet_mapSet_self]
  · rw [mapGet_mapSet_ne m k v h]
    simp [h]

theorem findEdgeIn_mem {l : List (String × MapEdge)} {f t : String} {e : MapEdge}
    (h : findEdgeIn l f t = some e) :
    ∃ k, (k, e) ∈ l ∧ ((e.fromId = f ∧ e.toId = t) ∨
      (e.bidirectional = true ∧ e.fromId = t ∧ e.toId = f)) := by
  induction l with
  | nil => simp [findEdgeIn] at h
  | cons p rest ih =>
    match p, h with
    | (k', e'), h =>
      rw [findEdgeIn] at h
      split at h
      · cases h
        rename_i hc
        exact ⟨k', List.mem_cons_self _ _, hc⟩
      · obtain ⟨k, hk, hc⟩ := ih h
        exact ⟨k, List.mem_cons_of_mem _ hk, hc⟩

theorem findEdgeIn_isSome {l : List (String × MapEdge)} {f t k : String} {e : MapEdge}
    (hmem : (k, e) ∈ l)
    (hc : (e.fromId = f ∧ e.toId = t) ∨ (e.bidirectional = true ∧ e.fromId = t ∧ e.toId = f)) :
    ∃ e', findEdgeIn l f t = some e' := by
  induction l with
  | nil => simp at hmem
  | cons p rest ih =>
    match p with
    | (k', e') =>
      rw [findEdgeIn]
      split
      · exact ⟨e', rfl⟩
      · rcases List.mem_cons.mp hmem with h | h
        · rename_i hneg
          cases h
          exact absurd hc hneg
        · exact ih h


/-- Strict positivity of every edge length, the hypothesis of the router claim. -/
def AllEdgeLengthsPos (g : MapGraph) : Prop :=
  ∀ p ∈ g.edges, 0 < MapEdge.length (Prod.snd p)

/-- Two parallel edges joining `a` and `b`: the one `findEdge` scans first is
long, the other short. -/
def eLong : MapEdge :=
  { id := "e-long", fromId := "a", toId := "b", length := 100, baseSpeedLimit := 10
  , surfaceQuality := 0.95, bidirectional := true, conditions := none }

def eShort : MapEdge :=
  { id := "e-short", fromId := "a", toId := "b", length := 1, baseSpeedLimit := 10
  , surfaceQuality := 0.95, bidirectional := true, conditions := none }

/-- Graph with two nodes and the two parallel edges. -/
def gCE : MapGraph :=
  { nodes :=
      [ ("a", { id := "a", position := { x := 0, y := 0 }, ntype := "intersection"
              , connections := [("b", true)] })
      , ("b", { id := "b", position := { x := 0, y := 0 }, ntype := "intersection"
              , connections := [("a", true)] }) ]
  , edges := [("e-long", eLong), ("e-short", eShort)] }

/-- C2 counterexample: on a graph with strictly positive edge lengths and the
distinct endpoints `a`, `b`, `Dijkstra` returns a route of total distance 100
while the walk along the parallel short edge has length 1; the claim's
optimality statement is false as stated. -/
theorem C2_counterexample :
    AllEdgeLengthsPos gCE ∧ "a" ≠ "b" ∧
    Dijkstra gCE "a" "b" =
      [{ edges := ["e-long"], startNode := "a", endNode := "b", totalDistance := 100 }] ∧
    IsWalk gCE "a" "b" [eShort] ∧
    walkCost [eShort] < 100 := by
  refine ⟨?_, by decide, ?_, ?_, ?_⟩
  · intro p hp
    simp only [gCE, List.mem_cons, List.not_mem_nil, or_false] at hp
    rcases hp with h | h <;> subst h <;> norm_num [eLong, eShort]
  · simp [Dijkstra, dijkstraLoop, selectMin, distGet, mapGet, mapSet, relaxAll, relaxNeighbor,
      findEdge, findEdgeIn, qiAdd, qiLt, buildPathNodes, edgesOfPath, gCE, eLong, eShort]
  · exact .cons eShort "e-short" (by simp [gCE]) (Or.inl ⟨rfl, rfl⟩) (.nil "b")
  · norm_num [walkCost, eShort]


theorem qiLt_some_left {a b : Option ℚ} (h : qiLt a b) : ∃ q, a = some q := by
  cases a with
  | none => cases h
  | some q => exact ⟨q, rfl⟩

theorem qiLe_of_qiLt {a b : Option ℚ} (h : qiLt a b) : qiLe a b := by
  cases a <;> cases b <;> simp_all [qiLe, qiLt] <;> linarith

/-- The selection step of the argmin scan. -/
def selStep (dist : List (String × Option ℚ)) (best : String × Option ℚ) (n : String) :
    String × Option ℚ :=
  if qiLt (distGet dist n) best.2 then (n, distGet dist n) else best

theorem selectMin_eq_foldl (dist : List (String × Option ℚ)) (uv : List String) :
    selectMin dist uv = (uv.foldl (selStep dist) ("", none)).1 := rfl

theorem selFold_spec (dist : List (String × Option ℚ)) :
    ∀ (l : List String) (acc : String × Option ℚ),
      (l.foldl (selStep dist) acc = acc ∨
        ((l.foldl (selStep dist) acc).1 ∈ l ∧
         (l.foldl (selStep dist) acc).2 = distGet dist (l.foldl (selStep dist) acc).1 ∧
         ∃ q, (l.foldl (selStep dist) acc).2 = some q)) ∧
      qiLe (l.foldl (selStep dist) acc).2 acc.2 ∧
      ∀ v ∈ l, qiLe (l.foldl (selStep dist) acc).2 (distGet dist v) := by
  intro l
  induction l with
  | nil =>
    intro acc
    refine ⟨Or.inl rfl, qiLe_refl _, ?_⟩
    intro v hv
    cases hv
  | cons n l ih =>
    intro acc
    rw [List.foldl_cons]
    by_cases hlt : qiLt (distGet dist n) acc.2
    · have hstep : selStep dist acc n = (n, distGet dist n) := by rw [selStep, if_pos hlt]
      obtain ⟨hres, hle, hall⟩ := ih (selStep dist acc n)
      obtain ⟨q, hq⟩ := qiLt_some_left hlt
      refine ⟨?_, ?_, ?_⟩
      · rcases hres with hres | ⟨h1, h2, h3⟩
        · right
          rw [hres, hstep]
          exact ⟨List.mem_cons_self _ _, rfl, q, hq⟩
        · exact Or.inr ⟨List.mem_cons_of_mem _ h1, h2, h3⟩
      · exact qiLe_trans (hstep ▸ hle) (qiLe_of_qiLt hlt)
      · intro v hv
        rcases List.mem_cons.mp hv with rfl | hv
        · exact hstep ▸ hle
        · exact hall v hv
    · have hstep : selStep dist acc n = acc := by rw [selStep, if_neg hlt]
      rw [hstep]
      obtain ⟨hres, hle, hall⟩ := ih acc
      refine ⟨?_, hle, ?_⟩
      · rcases hres with hres | ⟨h1, h2, h3⟩
        · exact Or.inl hres
        · exact Or.inr ⟨List.mem_cons_of_mem _ h1, h2, h3⟩
      · intro v hv
        rcases List.mem_cons.mp hv with rfl | hv
        · exact qiLe_trans hle (qiLe_of_not_qiLt hlt)
        · exact hall v hv

theorem selectMin_mem {dist : List (String × Option ℚ)} {uv : List String}
    (h : selectMin dist uv ≠ "") :
    selectMin dist uv ∈ uv ∧
    ∃ q, distGet dist (selectMin dist uv) = some q ∧
      ∀ v ∈ uv, qiLe (some q) (distGet dist v) := by
  obtain ⟨hres, -, hall⟩ := selFold_spec dist uv ("", none)
  rw [selectMin_eq_foldl] at h ⊢
  rcases hres with hres | ⟨h1, h2, q, h3⟩
  · exact absurd (congrArg Prod.fst hres) h
  · refine ⟨h1, q, h2 ▸ h3, ?_⟩
    intro v hv
    exact h3 ▸ hall v hv

theorem selectMin_empty {dist : List (String × Option ℚ)} {uv : List String}
    (h : selectMin dist uv = "") (hno : "" ∉ uv) :
    ∀ v ∈ uv, distGet dist v = none := by
  obtain ⟨hres, -, hall⟩ := selFold_spec dist uv ("", none)
  rw [selectMin_eq_foldl] at h
  rcases hres with hres | ⟨h1, -, -⟩
  · intro v hv
    have := hall v hv
    rw [hres] at this
    exact qiLe_none_iff.mp this
  · exact absurd (h ▸ h1) hno

/-- Loop invariant of the embedded Dijkstra, following the classical
settled-optimal / realizable-distances / relaxed-frontier decomposition. -/
structure DijkInv (g : MapGraph) (start : String) (uv : List String)
    (dist : List (String × Option ℚ)) (prev : List (String × String)) : Prop where
  uv_sub : ∀ x ∈ uv, x ∈ nodeKeys g
  uv_nodup : uv.Nodup
  dist_keys : ∀ x, (mapGet dist x).isSome ↔ (x ∈ nodeKeys g ∨ x = start)
  start_zero : mapGet dist start = some (some 0)
  nonneg : ∀ x d, distGet dist x = some d → 0 ≤ d
  sound : ∀ x d, mapGet dist x = some (some d) → ∃ es, IsWalk g start x es ∧ walkCost es = d
  prev_sound : ∀ x u, mapGet prev x = some u →
      (u ∈ nodeKeys g ∧ u ∉ uv) ∧ x ≠ start ∧
      ∃ e du, findEdge g u x = some e ∧ mapGet dist u = some (some du) ∧
        mapGet dist x = some (some (du + e.length))
  settled_opt : ∀ u, u ∈ nodeKeys g → u ∉ uv →
      ∃ du, mapGet dist u = some (some du) ∧
        ∀ es, IsWalk g start u es → du ≤ walkCost es
  frontier : ∀ u, u ∈ nodeKeys g → u ∉ uv → ∀ nb ∈ connKeys g u, ∀ e, findEdge g u nb = some e →
      qiLe (distGet dist nb) (qiAdd (distGet dist u) e.length)


theorem distGet_of_entry {dist : List (String × Option ℚ)} {x : String} {v : Option ℚ}
    (h : mapGet dist x = some v) : distGet dist x = v := by
  rw [distGet, h]
  rfl

theorem entry_of_isSome {dist : List (String × Option ℚ)} {x : String}
    (h : (mapGet dist x).isSome) : mapGet dist x = some (distGet dist x) := by
  rw [distGet]
  rcases hx : mapGet dist x with _ | v
  · rw [hx] at h
    cases h
  · rfl

/-- Under the data-model invariants, `findEdge` on the endpoints of a member
edge returns exactly that edge (in either orientation). -/
theorem findEdge_unique {g : MapGraph} (H : RouterInvariants g) {x y : String}
    {k : String} {e : MapEdge} (hmem : (k, e) ∈ g.edges)
    (hstep : e.fromId = x ∧ e.toId = y ∨ e.toId = x ∧ e.fromId = y) :
    findEdge g x y = some e := by
  have hpred : (e.fromId = x ∧ e.toId = y) ∨
      (e.bidirectional = true ∧ e.fromId = y ∧ e.toId = x) := by
    rcases hstep with ⟨h1, h2⟩ | ⟨h1, h2⟩
    · exact Or.inl ⟨h1, h2⟩
    · exact Or.inr ⟨H.bidir (k, e) hmem, h2, h1⟩
  obtain ⟨e', he'⟩ := findEdgeIn_isSome hmem hpred
  obtain ⟨k', hk'mem, hc'⟩ := findEdgeIn_mem he'
  have : (k', e') = (k, e) := by
    apply H.uniquePairs (k', e') hk'mem (k, e) hmem
    rcases hc' with ⟨ha, hb⟩ | ⟨-, ha, hb⟩ <;> rcases hstep with ⟨hx, hy⟩ | ⟨hx, hy⟩
    · exact Or.inl ⟨by rw [ha, hx], by rw [hb, hy]⟩
    · exact Or.inr ⟨by rw [ha, hx], by rw [hb, hy]⟩
    · exact Or.inr ⟨by rw [ha, hy], by rw [hb, hx]⟩
    · exact Or.inl ⟨by rw [ha, hy], by rw [hb, hx]⟩
  rw [findEdge, he']
  cases this
  rfl

/-- The crossing half of the cut argument: a walk from any settled node to the
selected minimum is at least as long as the selected distance. -/
theorem dijk_cross {g : MapGraph} {start : String} (H : RouterInvariants g)
    {uv : List String} {dist : List (String × Option ℚ)} {prev : List (String × String)}
    (inv : DijkInv g start uv dist prev)
    {c : String} (hc : c ∈ uv) {dc : ℚ}
    (hmin : ∀ v ∈ uv, qiLe (some dc) (distGet dist v)) :
    ∀ {y : String} {es : List MapEdge}, IsWalk g y c es → y ∈ nodeKeys g → y ∉ uv →
      ∀ dy, mapGet dist y = some (some dy) → dc ≤ dy + walkCost es := by
  intro y es hwalk
  induction hwalk with
  | nil =>
    intro hy hyuv dy hdy
    exact absurd hc hyuv
  | cons e k hmem hstep tail ih =>
    rename_i x y' z es'
    intro hx hxuv dy hdy
    have hw : 0 < e.length := H.lenPos (k, e) hmem
    have hadj : y' ∈ connKeys g x := by
      obtain ⟨h1, h2⟩ := H.edgeAdj (k, e) hmem
      have h1' : e.toId ∈ connKeys g e.fromId := h1
      have h2' : e.fromId ∈ connKeys g e.toId := h2
      rcases hstep with ⟨ha, hb⟩ | ⟨ha, hb⟩
      · rw [ha, hb] at h1'
        exact h1'
      · rw [ha, hb] at h2'
        exact h2'
    have hfind : findEdge g x y' = some e := findEdge_unique H hmem hstep
    have hfront := inv.frontier x hx hxuv y' hadj e hfind
    rw [distGet_of_entry hdy, qiAdd_some] at hfront
    obtain ⟨dz, hdz, hle⟩ := qiLe_some_right hfront
    have hy'nodes : y' ∈ nodeKeys g := by
      obtain ⟨h1, h2⟩ := H.endsInNodes (k, e) hmem
      have h1' : e.fromId ∈ nodeKeys g := h1
      have h2' : e.toId ∈ nodeKeys g := h2
      rcases hstep with ⟨-, hb⟩ | ⟨-, hb⟩
      · exact hb ▸ h2'
      · exact hb ▸ h1'
    have htail0 : 0 ≤ walkCost es' := walkCost_nonneg H.lenPos tail
    by_cases hy'uv : y' ∈ uv
    · have := hmin y' hy'uv
      rw [hdz] at this
      have hdcdz : dc ≤ dz := qiLe_some_some.mp this
      rw [walkCost_cons]
      linarith
    · have hentry : mapGet dist y' = some (some dz) := by
        have hs : (mapGet dist y').isSome := (inv.dist_keys y').mpr (Or.inl hy'nodes)
        rw [entry_of_isSome hs, hdz]
      have := ih hc hy'nodes hy'uv dz hentry
      rw [walkCost_cons]
      linarith

/-- The cut argument: when the loop selects `c`, every walk from the source to
`c` costs at least the selected distance. -/
theorem dijk_cut {g : MapGraph} {start : String} (H : RouterInvariants g)
    {uv : List String} {dist : List (String × Option ℚ)} {prev : List (String × String)}
    (inv : DijkInv g start uv dist prev)
    {c : String} (hc : c ∈ uv) {dc : ℚ} (hdc : distGet dist c = some dc)
    (hmin : ∀ v ∈ uv, qiLe (some dc) (distGet dist v)) :
    ∀ es, IsWalk g start c es → dc ≤ walkCost es := by
  intro es hwalk
  by_cases hstart : start ∈ nodeKeys g
  · by_cases hsuv : start ∈ uv
    · have := hmin start hsuv
      rw [distGet_of_entry inv.start_zero] at this
      have : dc ≤ 0 := qiLe_some_some.mp this
      have := walkCost_nonneg H.lenPos hwalk
      linarith
    · have := dijk_cross H inv hc hmin hwalk hstart hsuv 0 inv.start_zero
      linarith
  · cases hwalk with
    | nil => exact absurd (inv.uv_sub _ hc) hstart
    | cons e k hmem hstep tail =>
      obtain ⟨h1, h2⟩ := H.endsInNodes (k, e) hmem
      have h1' : e.fromId ∈ nodeKeys g := h1
      have h2' : e.toId ∈ nodeKeys g := h2
      rcases hstep with ⟨ha, -⟩ | ⟨ha, -⟩
      · exact absurd (ha ▸ h1') hstart
      · exact absurd (ha ▸ h2') hstart


theorem IsWalk_snoc {g : MapGraph} {x y z : String} {es : List MapEdge}
    (h : IsWalk g x y es) (e : MapEdge) (k : String) (hmem : (k, e) ∈ g.edges)
    (hstep : e.fromId = y ∧ e.toId = z ∨ e.toId = y ∧ e.fromId = z) :
    IsWalk g x z (es ++ [e]) := by
  induction h with
  | nil w => exact .cons e k hmem hstep (.nil z)
  | cons e' k' hmem' hstep' tail ih => exact .cons e' k' hmem' hstep' (ih hstep)

theorem walkCost_append (es1 es2 : List MapEdge) :
    walkCost (es1 ++ es2) = walkCost es1 + walkCost es2 := by
  simp [walkCost]

/-- One relaxation step of the fold over a settled node's adjacency list. -/
def relaxStep (g : MapGraph) (current : String)
    (st : List (String × Option ℚ) × List (String × String)) (p : String × Bool) :
    List (String × Option ℚ) × List (String × String) :=
  relaxNeighbor g current st p.1

theorem relaxAll_eq_foldl {g : MapGraph} {dist : List (String × Option ℚ)}
    {prev : List (String × String)} {current : String} {node : MapNode}
    (h : mapGet g.nodes current = some node) :
    relaxAll g dist prev current = node.connections.foldl (relaxStep g current) (dist, prev) := by
  rw [relaxAll, h]
  rfl

/-- Mid-relaxation invariant: what stays true of the evolving `(dist, prev)`
while the neighbours of `current` are relaxed. -/
structure RelaxMid (g : MapGraph) (start : String) (uv : List String)
    (dist : List (String × Option ℚ)) (current : String)
    (st : List (String × Option ℚ) × List (String × String)) : Prop where
  keys : ∀ x, (mapGet st.1 x).isSome ↔ (mapGet dist x).isSome
  mono : ∀ x, qiLe (distGet st.1 x) (distGet dist x)
  stable : ∀ u, u ∈ nodeKeys g → (u ∉ uv ∨ u = current) → mapGet st.1 u = mapGet dist u
  stableStart : mapGet st.1 start = mapGet dist start
  sound : ∀ x d, mapGet st.1 x = some (some d) → ∃ es, IsWalk g start x es ∧ walkCost es = d
  nonneg : ∀ x d, distGet st.1 x = some d → 0 ≤ d
  prevS : ∀ x u, mapGet st.2 x = some u →
      (u ∈ nodeKeys g ∧ (u ∉ uv ∨ u = current)) ∧ x ≠ start ∧
      ∃ e du, findEdge g u x = some e ∧ mapGet st.1 u = some (some du) ∧
        mapGet st.1 x = some (some (du + e.length))

theorem relaxStep_spec {g : MapGraph} {start : String} {uv : List String}
    {dist : List (String × Option ℚ)} {prev : List (String × String)}
    (H : RouterInvariants g) (inv : DijkInv g start uv dist prev)
    {current : String} (hcuv : current ∈ uv) {dc : ℚ}
    (hdcEntry : mapGet dist current = some (some dc))
    (st : List (String × Option ℚ) × List (String × String))
    (hmid : RelaxMid g start uv dist current st) (p : String × Bool) :
    RelaxMid g start uv dist current (relaxStep g current st p) ∧
    (∀ x, qiLe (distGet (relaxStep g current st p).1 x) (distGet st.1 x)) ∧
    (∀ e, findEdge g current p.1 = some e →
      qiLe (distGet (relaxStep g current st p).1 p.1) (some (dc + e.length))) := by
  have hcnodes : current ∈ nodeKeys g := inv.uv_sub current hcuv
  have hcurSt : mapGet st.1 current = some (some dc) := by
    rw [hmid.stable current hcnodes (Or.inr rfl), hdcEntry]
  have hcurGet : distGet st.1 current = some dc := distGet_of_entry hcurSt
  rcases hfe : findEdge g current p.1 with _ | e
  · have hid : relaxStep g current st p = st := by
      rw [relaxStep, relaxNeighbor, hfe]
      rfl
    rw [hid]
    refine ⟨hmid, fun x => qiLe_refl _, ?_⟩
    intro e he
    cases he
  · obtain ⟨ke, hkemem, hkec⟩ := findEdgeIn_mem hfe
    have hw : 0 < e.length := H.lenPos (ke, e) hkemem
    have hdc0 : 0 ≤ dc := inv.nonneg current dc (distGet_of_entry hdcEntry)
    obtain ⟨esc, hesc, hcostc⟩ := hmid.sound current dc hcurSt
    have hsnoc : IsWalk g start p.1 (esc ++ [e]) := by
      apply IsWalk_snoc hesc e ke hkemem
      rcases hkec with ⟨h1, h2⟩ | ⟨-, h1, h2⟩
      · exact Or.inl ⟨h1, h2⟩
      · exact Or.inr ⟨h2, h1⟩
    have hsnocCost : walkCost (esc ++ [e]) = dc + e.length := by
      rw [walkCost_append, hcostc, walkCost_cons, walkCost_nil]
      ring
    have hunf : relaxStep g current st p =
        if qiLt (some (dc + e.length)) (distGet st.1 p.1)
        then (mapSet st.1 p.1 (some (dc + e.length)), mapSet st.2 p.1 current)
        else st := by
      rw [relaxStep, relaxNeighbor, hfe]
      simp only [Option.elim, hcurGet, qiAdd_some]
    by_cases hlt : qiLt (some (dc + e.length)) (distGet st.1 p.1)
    · rw [hunf, if_pos hlt]
      have hnbSpecial : ¬ (p.1 ∈ nodeKeys g ∧ (p.1 ∉ uv ∨ p.1 = current)) := by
        rintro ⟨hn, hs⟩
        have hst := hmid.stable p.1 hn hs
        rcases hs with hs | hs
        · obtain ⟨du, hdu, hopt⟩ := inv.settled_opt p.1 hn hs
          have hd' : distGet st.1 p.1 = some du := by
            rw [distGet, hst, hdu]
            rfl
          rw [hd'] at hlt
          have : dc + e.length < du := hlt
          have := hopt _ hsnoc
          rw [hsnocCost] at this
          linarith
        · subst hs
          rw [hcurGet] at hlt
          have : dc + e.length < dc := hlt
          linarith
      have hnbStart : p.1 ≠ start := by
        intro hs
        rw [hs] at hlt
        rw [distGet_of_entry (hmid.stableStart.trans inv.start_zero)] at hlt
        have : dc + e.length < 0 := hlt
        linarith
      have hnbSome : (mapGet st.1 p.1).isSome := by
        rcases hx : mapGet st.1 p.1 with _ | v
        · rw [distGet, hx] at hlt
          have : dc + e.length < 0 := hlt
          linarith
        · rfl
      refine ⟨⟨?_, ?_, ?_, ?_, ?_, ?_, ?_⟩, ?_, ?_⟩
      · intro x
        by_cases hx : x = p.1
        · subst hx
          rw [mapGet_mapSet_self]
          simp [(hmid.keys p.1).mp hnbSome]
        · rw [mapGet_mapSet_ne _ _ _ hx]
          exact hmid.keys x
      · intro x
        by_cases hx : x = p.1
        · subst hx
          rw [distGet_of_entry (mapGet_mapSet_self st.1 p.1 (some (dc + e.length)))]
          exact qiLe_trans (qiLe_of_qiLt hlt) (hmid.mono p.1)
        · rw [distGet, mapGet_mapSet_ne _ _ _ hx, ← distGet]
          exact hmid.mono x
      · intro u hu hs
        have hne : u ≠ p.1 := fun he' => hnbSpecial (he' ▸ ⟨hu, hs⟩)
        rw [mapGet_mapSet_ne _ _ _ hne]
        exact hmid.stable u hu hs
      · rw [mapGet_mapSet_ne _ _ _ (Ne.symm hnbStart)]
        exact hmid.stableStart
      · intro x d hx
        by_cases hxe : x = p.1
        · subst hxe
          rw [mapGet_mapSet_self] at hx
          cases hx
          exact ⟨esc ++ [e], hsnoc, hsnocCost⟩
        · rw [mapGet_mapSet_ne _ _ _ hxe] at hx
          exact hmid.sound x d hx
      · intro x d hx
        by_cases hxe : x = p.1
        · subst hxe
          rw [distGet_of_entry (mapGet_mapSet_self st.1 p.1 (some (dc + e.length)))] at hx
          cases hx
          linarith
        · rw [distGet, mapGet_mapSet_ne _ _ _ hxe, ← distGet] at hx
          exact hmid.nonneg x d hx
      · intro x u hx
        by_cases hxe : x = p.1
        · subst hxe
          rw [mapGet_mapSet_self] at hx
          cases hx
          refine ⟨⟨hcnodes, Or.inr rfl⟩, hnbStart, e, dc, hfe, ?_, ?_⟩
          · have hne : current ≠ p.1 := fun he' => hnbSpecial (he' ▸ ⟨hcnodes, Or.inr rfl⟩)
            rw [mapGet_mapSet_ne _ _ _ hne]
            exact hcurSt
          · rw [mapGet_mapSet_self]
        · rw [mapGet_mapSet_ne _ _ _ hxe] at hx
          obtain ⟨⟨hu1, hu2⟩, hxs, e', du, hfind', hdu', hdx'⟩ := hmid.prevS x u hx
          have hune : u ≠ p.1 := fun he' => hnbSpecial (he' ▸ ⟨hu1, hu2⟩)
          refine ⟨⟨hu1, hu2⟩, hxs, e', du, hfind', ?_, ?_⟩
          · rw [mapGet_mapSet_ne _ _ _ hune]
            exact hdu'
          · rw [mapGet_mapSet_ne _ _ _ hxe]
            exact hdx'
      · intro x
        by_cases hx : x = p.1
        · subst hx
          rw [distGet_of_entry (mapGet_mapSet_self st.1 p.1 (some (dc + e.length)))]
          exact qiLe_of_qiLt hlt
        · rw [distGet, mapGet_mapSet_ne _ _ _ hx, ← distGet]
          exact qiLe_refl _
      · intro e' he'
        cases he'
        rw [distGet_of_entry (mapGet_mapSet_self st.1 p.1 (some (dc + e.length)))]
        exact qiLe_refl _
    · rw [hunf, if_neg hlt]
      refine ⟨hmid, fun x => qiLe_refl _, ?_⟩
      intro e' he'
      cases he'
      exact qiLe_of_not_qiLt hlt


theorem relaxFold_spec {g : MapGraph} {start : String} {uv : List String}
    {dist : List (String × Option ℚ)} {prev : List (String × String)}
    (H : RouterInvariants g) (inv : DijkInv g start uv dist prev)
    {current : String} (hcuv : current ∈ uv) {dc : ℚ}
    (hdcEntry : mapGet dist current = some (some dc)) :
    ∀ (l : List (String × Bool)) (st : List (String × Option ℚ) × List (String × String)),
      RelaxMid g start uv dist current st →
      RelaxMid g start uv dist current (l.foldl (relaxStep g current) st) ∧
      (∀ x, qiLe (distGet (l.foldl (relaxStep g current) st).1 x) (distGet st.1 x)) ∧
      (∀ p ∈ l, ∀ e, findEdge g current p.1 = some e →
        qiLe (distGet (l.foldl (relaxStep g current) st).1 p.1) (some (dc + e.length))) := by
  intro l
  induction l with
  | nil =>
    intro st hmid
    refine ⟨hmid, fun x => qiLe_refl _, ?_⟩
    intro p hp
    cases hp
  | cons p l ih =>
    intro st hmid
    rw [List.foldl_cons]
    obtain ⟨hmid', hstep_mono, hstep_bound⟩ := relaxStep_spec H inv hcuv hdcEntry st hmid p
    obtain ⟨hmid'', hfold_mono, hfold_bound⟩ := ih (relaxStep g current st p) hmid'
    refine ⟨hmid'', ?_, ?_⟩
    · intro x
      exact qiLe_trans (hfold_mono x) (hstep_mono x)
    · intro q hq e he
      rcases List.mem_cons.mp hq with rfl | hq
      · exact qiLe_trans (hfold_mono q.1) (hstep_bound e he)
      · exact hfold_bound q hq e he

theorem mapGet_isSome_of_keyMem {α : Type} {m : List (String × α)} {x : String}
    (h : x ∈ m.map Prod.fst) : (mapGet m x).isSome := by
  induction m with
  | nil => simp at h
  | cons q rest ih =>
    match q with
    | (k, v) =>
      rw [mapGet]
      by_cases hk : k = x
      · rw [if_pos hk]
        rfl
      · rw [if_neg hk]
        apply ih
        simp only [List.map_cons, List.mem_cons] at h
        rcases h with h | h
        · exact absurd h.symm hk
        · exact h

theorem distGet_congr {d1 d2 : List (String × Option ℚ)} {x : String}
    (h : mapGet d1 x = mapGet d2 x) : distGet d1 x = distGet d2 x := by
  rw [distGet, distGet, h]

/-- One full iteration of the Dijkstra loop preserves the invariant: settling
the selected minimum and relaxing its neighbours. -/
theorem dijkStep_spec {g : MapGraph} {start : String} {uv : List String}
    {dist : List (String × Option ℚ)} {prev : List (String × String)}
    (H : RouterInvariants g) (inv : DijkInv g start uv dist prev)
    {current : String} (hcur : current = selectMin dist uv) (hcne : current ≠ "") :
    DijkInv g start (uv.erase current) (relaxAll g dist prev current).1
      (relaxAll g dist prev current).2 := by
  have hsel : selectMin dist uv ≠ "" := fun h => hcne (hcur.trans h)
  obtain ⟨hcuv, dc, hdc, hmin⟩ := selectMin_mem hsel
  rw [← hcur] at hcuv hdc
  have hcnodes : current ∈ nodeKeys g := inv.uv_sub current hcuv
  have hdcEntry : mapGet dist current = some (some dc) := by
    rw [entry_of_isSome ((inv.dist_keys current).mpr (Or.inl hcnodes)), hdc]
  have hcut := dijk_cut H inv hcuv hdc hmin
  have hns : (mapGet g.nodes current).isSome := mapGet_isSome_of_keyMem hcnodes
  rcases hnode : mapGet g.nodes current with _ | node
  · rw [hnode] at hns
    cases hns
  · have hmid0 : RelaxMid g start uv dist current (dist, prev) := by
      refine ⟨fun x => Iff.rfl, fun x => qiLe_refl _, fun u hu hs => rfl, rfl,
        inv.sound, inv.nonneg, ?_⟩
      intro x u hx
      obtain ⟨⟨hu1, hu2⟩, hxs, e, du, hfind, hdu, hdx⟩ := inv.prev_sound x u hx
      exact ⟨⟨hu1, Or.inl hu2⟩, hxs, e, du, hfind, hdu, hdx⟩
    obtain ⟨hmid, hmono, hbound⟩ :=
      relaxFold_spec H inv hcuv hdcEntry node.connections (dist, prev) hmid0
    rw [relaxAll_eq_foldl hnode]
    set st := node.connections.foldl (relaxStep g current) (dist, prev) with hst
    have hnotErase : current ∉ uv.erase current := by
      rw [List.Nodup.mem_erase_iff inv.uv_nodup]
      rintro ⟨h, -⟩
      exact h rfl
    refine ⟨?_, inv.uv_nodup.erase current, ?_, ?_, hmid.nonneg, hmid.sound, ?_, ?_, ?_⟩
    · intro x hx
      exact inv.uv_sub x (List.mem_of_mem_erase hx)
    · intro x
      exact (hmid.keys x).trans (inv.dist_keys x)
    · exact hmid.stableStart.trans inv.start_zero
    · intro x u hx
      obtain ⟨⟨hu1, hu2⟩, hxs, e, du, hfind, hdu, hdx⟩ := hmid.prevS x u hx
      refine ⟨⟨hu1, ?_⟩, hxs, e, du, hfind, hdu, hdx⟩
      rcases hu2 with hu2 | hu2
      · exact fun hmem => hu2 (List.mem_of_mem_erase hmem)
      · exact hu2 ▸ hnotErase
    · intro u hu huv
      by_cases huuv : u ∈ uv
      · have hueq : u = current := by
          by_contra hne
          exact huv ((List.Nodup.mem_erase_iff inv.uv_nodup).mpr ⟨hne, huuv⟩)
        subst hueq
        refine ⟨dc, ?_, hcut⟩
        rw [hmid.stable u hu (Or.inr rfl)]
        exact hdcEntry
      · obtain ⟨du, hdu, hopt⟩ := inv.settled_opt u hu huuv
        refine ⟨du, ?_, hopt⟩
        rw [hmid.stable u hu (Or.inl huuv)]
        exact hdu
    · intro u hu huv nb hnb e hfind
      by_cases huuv : u ∈ uv
      · have hueq : u = current := by
          by_contra hne
          exact huv ((List.Nodup.mem_erase_iff inv.uv_nodup).mpr ⟨hne, huuv⟩)
        subst hueq
        have hconn : connKeys g u = node.connections.map Prod.fst := by
          rw [connKeys, hnode]
          rfl
        rw [hconn] at hnb
        obtain ⟨p, hp, hpe⟩ := List.mem_map.mp hnb
        have := hbound p hp e (hpe ▸ hfind)
        rw [hpe] at this
        have hcst : distGet st.1 u = some dc :=
          distGet_of_entry (by rw [hmid.stable u hu (Or.inr rfl)]; exact hdcEntry)
        rw [hcst, qiAdd_some]
        exact this
      · obtain ⟨du, hdu, -⟩ := inv.settled_opt u hu huuv
        have hfr := inv.frontier u hu huuv nb hnb e hfind
        have hstab : distGet st.1 u = distGet dist u :=
          distGet_congr (hmid.stable u hu (Or.inl huuv))
        rw [hstab]
        exact qiLe_trans (hmid.mono nb) hfr


theorem mapGet_mapConst {α β : Type} (l : List (String × α)) (c : β) (x : String) :
    mapGet (l.map (fun p => (p.1, c))) x = (mapGet l x).map (fun _ => c) := by
  induction l with
  | nil => rfl
  | cons q rest ih =>
    match q with
    | (k, v) =>
      rw [List.map_cons, mapGet, mapGet]
      by_cases hk : k = x
      · rw [if_pos hk, if_pos hk]
        rfl
      · rw [if_neg hk, if_neg hk]
        exact ih

theorem keyMem_iff_isSome {α : Type} {m : List (String × α)} {x : String} :
    x ∈ m.map Prod.fst ↔ (mapGet m x).isSome := by
  constructor
  · exact mapGet_isSome_of_keyMem
  · intro h
    rcases hm : mapGet m x with _ | v
    · rw [hm] at h
      cases h
    · exact List.mem_map.mpr ⟨(x, v), mapGet_mem hm, rfl⟩

/-- The invariant holds at loop entry. -/
theorem dijkInit {g : MapGraph} (H : RouterInvariants g) (start : String) :
    DijkInv g start (nodeKeys g)
      (mapSet (g.nodes.map (fun p => (p.1, (none : Option ℚ)))) start (some 0)) [] := by
  have hbase : ∀ x, mapGet (g.nodes.map (fun p => (p.1, (none : Option ℚ)))) x =
      (mapGet g.nodes x).map (fun _ => (none : Option ℚ)) := mapGet_mapConst g.nodes none
  have hget : ∀ x, mapGet (mapSet (g.nodes.map (fun p => (p.1, (none : Option ℚ)))) start
      (some 0)) x = if x = start then some (some 0)
        else (mapGet g.nodes x).map (fun _ => (none : Option ℚ)) := by
    intro x
    by_cases hx : x = start
    · subst hx
      rw [if_pos rfl, mapGet_mapSet_self]
    · rw [if_neg hx, mapGet_mapSet_ne _ _ _ hx, hbase]
  refine ⟨fun x h => h, H.nodesNodup, ?_, ?_, ?_, ?_, ?_, ?_, ?_⟩
  · intro x
    rw [hget]
    by_cases hx : x = start
    · simp [hx]
    · rw [if_neg hx]
      rcases hn : mapGet g.nodes x with _ | n
      · constructor
        · intro h
          exact Bool.noConfusion h
        · intro h
          rcases h with h | h
          · have h2 : (mapGet g.nodes x).isSome = true := keyMem_iff_isSome.mp h
            rw [hn] at h2
            exact Bool.noConfusion h2
          · exact absurd h hx
      · constructor
        · intro _
          exact Or.inl (keyMem_iff_isSome.mpr (by rw [hn]; rfl))
        · intro _
          rfl
  · rw [hget, if_pos rfl]
  · intro x d hx
    rw [distGet, hget] at hx
    by_cases hs : x = start
    · rw [if_pos hs] at hx
      cases hx
      norm_num
    · rw [if_neg hs] at hx
      rcases hn : mapGet g.nodes x with _ | n
      · rw [hn] at hx
        cases hx
        norm_num
      · rw [hn] at hx
        cases hx
  · intro x d hx
    rw [hget] at hx
    by_cases hs : x = start
    · rw [if_pos hs] at hx
      cases hx
      subst hs
      exact ⟨[], .nil x, rfl⟩
    · rw [if_neg hs] at hx
      rcases hn : mapGet g.nodes x with _ | n <;> rw [hn] at hx <;> cases hx
  · intro x u hx
    cases hx
  · intro u hu huv
    exact absurd hu huv
  · intro u hu huv
    exact absurd hu huv

/-- Running the loop from an invariant state lands in an invariant state
that the loop can only have exited in one of its three break modes. -/
theorem dijkstraLoop_spec {g : MapGraph} {start endId : String} (H : RouterInvariants g) :
    ∀ (fuel : Nat) (uv : List String) (dist : List (String × Option ℚ))
      (prev : List (String × String)),
      DijkInv g start uv dist prev → uv.length < fuel →
      ∃ uv', DijkInv g start uv'
          (dijkstraLoop g endId fuel uv dist prev).1
          (dijkstraLoop g endId fuel uv dist prev).2 ∧
        (uv' = [] ∨ selectMin (dijkstraLoop g endId fuel uv dist prev).1 uv' = "" ∨
         selectMin (dijkstraLoop g endId fuel uv dist prev).1 uv' = endId) := by
  intro fuel
  induction fuel with
  | zero =>
    intro uv dist prev hinv hlen
    cases hlen
  | succ fuel ih =>
    intro uv dist prev hinv hlen
    rw [dijkstraLoop]
    by_cases huv : uv = []
    · rw [if_pos huv]
      exact ⟨uv, hinv, Or.inl huv⟩
    · rw [if_neg huv]
      simp only []
      by_cases hblank : selectMin dist uv = ""
      · rw [if_pos hblank]
        exact ⟨uv, hinv, Or.inr (Or.inl hblank)⟩
      · rw [if_neg hblank]
        by_cases hend : selectMin dist uv = endId
        · rw [if_pos hend]
          exact ⟨uv, hinv, Or.inr (Or.inr hend)⟩
        · rw [if_neg hend]
          have hstep := dijkStep_spec H hinv rfl hblank
          have hmem : selectMin dist uv ∈ uv := (selectMin_mem hblank).1
          have hpos : 0 < uv.length := List.length_pos.mpr huv
          have hlen' : (uv.erase (selectMin dist uv)).length < fuel := by
            rw [List.length_erase_of_mem hmem]
            omega
          exact ih (uv.erase (selectMin dist uv))
            (relaxAll g dist prev (selectMin dist uv)).1
            (relaxAll g dist prev (selectMin dist uv)).2 hstep hlen'

/-- The suffix of a reconstructed path is linked by `prev` pointers. -/
def ChainFrom (prev : List (String × String)) : String → List String → Prop
  | _, [] => True
  | u, v :: rest => mapGet prev v = some u ∧ ChainFrom prev v rest

theorem buildPath_spec {start : String} {prev : List (String × String)} :
    ∀ (fuel : Nat) (u : String) (acc l : List String),
      buildPathNodes start prev fuel u acc = some l →
      ChainFrom prev u acc →
      ∃ t, l = start :: t ∧ ChainFrom prev start t ∧ l.getLast? = (u :: acc).getLast? := by
  intro fuel
  induction fuel with
  | zero =>
    intro u acc l h hc
    cases h
  | succ fuel ih =>
    intro u acc l h hc
    rw [buildPathNodes] at h
    by_cases hu : u = start
    · rw [if_pos hu] at h
      cases h
      subst hu
      exact ⟨acc, rfl, hc, rfl⟩
    · rw [if_neg hu] at h
      rcases hp : mapGet prev u with _ | p
      · rw [hp] at h
        cases h
      · rw [hp] at h
        simp only [Option.elim] at h
        obtain ⟨t, hl, hcs, hlast⟩ := ih p (u :: acc) l h ⟨hp, hc⟩
        refine ⟨t, hl, hcs, ?_⟩
        rw [hlast, List.getLast?_cons_cons]

/-- Telescoping the `prev` chain: the accumulated edge lengths equal the final
distance label minus the initial one. -/
theorem chain_eval {g : MapGraph} {start : String} {uv : List String}
    {dist : List (String × Option ℚ)} {prev : List (String × String)}
    (inv : DijkInv g start uv dist prev) :
    ∀ (t : List String) (u : String) (du : ℚ), ChainFrom prev u t →
      mapGet dist u = some (some du) →
      ∃ last dl, (u :: t).getLast? = some last ∧ mapGet dist last = some (some dl) ∧
        (edgesOfPath g (u :: t)).2 = dl - du := by
  intro t
  induction t with
  | nil =>
    intro u du hc hdu
    refine ⟨u, du, rfl, hdu, ?_⟩
    rw [edgesOfPath]
    ring
  | cons v rest ih =>
    intro u du hc hdu
    obtain ⟨hpv, hrest⟩ := hc
    obtain ⟨-, -, e, du', hfind, hdu', hdv⟩ := inv.prev_sound v u hpv
    rw [hdu] at hdu'
    cases hdu'
    obtain ⟨last, dl, hlast, hdl, htot⟩ := ih v (du + e.length) hrest hdv
    refine ⟨last, dl, ?_, hdl, ?_⟩
    · rw [List.getLast?_cons_cons]
      exact hlast
    · rw [edgesOfPath]
      simp only [hfind, Option.elim]
      rw [htot]
      ring

/-- The accumulated total of a reconstructed path equals the sum of the lengths
of its edge IDs looked up in the edge map. -/
theorem edgesOfPath_sum {g : MapGraph} (H : RouterInvariants g) :
    ∀ pn : List String,
      ((edgesOfPath g pn).1.map (fun i => (mapGet g.edges i).elim 0 MapEdge.length)).sum
        = (edgesOfPath g pn).2 := by
  intro pn
  induction pn with
  | nil => simp [edgesOfPath]
  | cons a rest ih =>
    cases rest with
    | nil => simp [edgesOfPath]
    | cons b rest' =>
      rw [edgesOfPath]
      rcases hf : findEdge g a b with _ | e
      · simp only [Option.elim]
        exact ih
      · simp only [Option.elim, List.map_cons, List.sum_cons]
        obtain ⟨k, hkmem, -⟩ := findEdgeIn_mem hf
        have hkid : k = e.id := H.keyIsId (k, e) hkmem
        have : mapGet g.edges e.id = some e := by
          rw [← hkid]
          exact mem_mapGet H.edgesNodup hkmem
        rw [this]
        exact congrArg (fun s => e.length + s) ih

/-- C2 (amended): on a graph satisfying the data-model invariants — unique node
and edge keys, edge keys equal to edge IDs, strictly positive lengths,
bidirectional flags set, endpoints present and mirrored in the adjacency lists,
at most one edge per unordered node pair, and nonempty node IDs — a single
route returned by `Dijkstra` for distinct endpoints has minimal total distance
among all walks joining them, and its stored total equals the sum of the
lengths of its listed edge IDs. -/
theorem C2_dijkstra_optimal {g : MapGraph} {start endId : String} {r : Route}
    (H : RouterInvariants g) (hne : start ≠ endId)
    (hret : Dijkstra g start endId = [r]) :
    (∀ es, IsWalk g start endId es → r.totalDistance ≤ walkCost es) ∧
    r.totalDistance =
      (r.edges.map (fun i => (mapGet g.edges i).elim 0 MapEdge.length)).sum := by
  simp only [Dijkstra] at hret
  obtain ⟨uv', hinv, hexit⟩ :=
    @dijkstraLoop_spec g start endId H ((g.nodes.map Prod.fst).length + 1)
      (g.nodes.map Prod.fst)
      (mapSet (g.nodes.map (fun p : String × MapNode => (p.1, (none : Option ℚ)))) start
        (some 0)) []
      (dijkInit H start) (Nat.lt_succ_self _)
  set L := dijkstraLoop g endId ((g.nodes.map Prod.fst).length + 1) (g.nodes.map Prod.fst)
    (mapSet (g.nodes.map (fun p : String × MapNode => (p.1, (none : Option ℚ)))) start
      (some 0)) [] with hL
  rcases hbp : buildPathNodes start L.2 (g.nodes.length + 2) endId [] with _ | pn
  · rw [hbp] at hret
    simp at hret
  · rw [hbp] at hret
    simp only [Option.elim] at hret
    injection hret with h1 h2
    subst h1
    obtain ⟨t, hpn, hchain, hlast⟩ :=
      buildPath_spec (g.nodes.length + 2) endId [] pn hbp trivial
    have hlastE : pn.getLast? = some endId := by rw [hlast]; rfl
    obtain ⟨last, dl, hlastC, hdl, htot⟩ := chain_eval hinv t start 0 hchain hinv.start_zero
    rw [← hpn] at hlastC htot
    rw [hlastE] at hlastC
    have hle2 : last = endId := (Option.some.inj hlastC).symm
    rw [hle2] at hdl
    have hEndNode : endId ∈ nodeKeys g := by
      have hs : (mapGet L.1 endId).isSome := by rw [hdl]; rfl
      rcases (hinv.dist_keys endId).mp hs with h | h
      · exact h
      · exact absurd h.symm hne
    have hnoBlank : "" ∉ uv' := by
      intro hmem
      have h1 : "" ∈ nodeKeys g := hinv.uv_sub _ hmem
      rw [nodeKeys] at h1
      obtain ⟨p, hp, hp1⟩ := List.mem_map.mp h1
      exact H.idsNonempty p hp hp1
    have hsettled : endId ∉ uv' → ∀ es, IsWalk g start endId es → dl ≤ walkCost es := by
      intro hnot es hw
      obtain ⟨du, hdu, hopt⟩ := hinv.settled_opt endId hEndNode hnot
      rw [hdu] at hdl
      have hddl : du = dl := Option.some.inj (Option.some.inj hdl)
      exact hddl ▸ hopt es hw
    have hopt : ∀ es, IsWalk g start endId es → dl ≤ walkCost es := by
      rcases hexit with hE | hE | hE
      · refine hsettled ?_
        rw [hE]
        exact List.not_mem_nil _
      · refine hsettled ?_
        intro hmem
        have h0 := selectMin_empty hE hnoBlank endId hmem
        rw [distGet_of_entry hdl] at h0
        cases h0
      · by_cases hblank : selectMin L.1 uv' = ""
        · refine hsettled ?_
          intro hmem
          have h0 := selectMin_empty hblank hnoBlank endId hmem
          rw [distGet_of_entry hdl] at h0
          cases h0
        · obtain ⟨hmem, q, hq, hmin⟩ := selectMin_mem hblank
          rw [hE] at hmem hq
          rw [distGet_of_entry hdl] at hq
          have hqdl : dl = q := Option.some.inj hq
          subst hqdl
          exact dijk_cut H hinv hmem (distGet_of_entry hdl) hmin
    refine ⟨?_, ?_⟩
    · intro es hw
      have h5 : (edgesOfPath g pn).2 = dl := by rw [htot]; ring
      show (edgesOfPath g pn).2 ≤ walkCost es
      rw [h5]
      exact hopt es hw
    · exact (edgesOfPath_sum H pn).symm

/-- A single bidirectional road joining two intersections, for exercising the
router on a well-formed map. -/
def eW : MapEdge :=
  { id := "a-b", fromId := "a", toId := "b", length := 5, baseSpeedLimit := 10
  , surfaceQuality := 1, bidirectional := true, conditions := none }

def gW : MapGraph :=
  { nodes :=
      [ ("a", { id := "a", position := { x := 0, y := 0 }, ntype := "intersection"
              , connections := [("b", true)] })
      , ("b", { id := "b", position := { x := 0, y := 0 }, ntype := "intersection"
              , connections := [("a", true)] }) ]
  , edges := [("a-b", eW)] }

def rW : Route :=
  { edges := ["a-b"], startNode := "a", endNode := "b", totalDistance := 5 }

theorem gW_invariants : RouterInvariants gW := by
  refine ⟨?_, ?_, ?_, ?_, ?_, ?_, ?_, ?_, ?_⟩
  · decide
  · decide
  · intro p hp
    have h : p = ("a-b", eW) := by simpa [gW] using hp
    subst h
    rfl
  · intro p hp
    have h : p = ("a-b", eW) := by simpa [gW] using hp
    subst h
    norm_num [eW]
  · intro p hp
    have h : p = ("a-b", eW) := by simpa [gW] using hp
    subst h
    rfl
  · intro p hp
    have h : p = ("a-b", eW) := by simpa [gW] using hp
    subst h
    exact ⟨by decide, by decide⟩
  · intro p hp
    have h : p = ("a-b", eW) := by simpa [gW] using hp
    subst h
    exact ⟨by decide, by decide⟩
  · intro p hp q hq hpq
    have h : p = ("a-b", eW) := by simpa [gW] using hp
    have h2 : q = ("a-b", eW) := by simpa [gW] using hq
    rw [h, h2]
  · decide

theorem gW_dijkstra : Dijkstra gW "a" "b" = [rW] := by
  simp [Dijkstra, dijkstraLoop, selectMin, distGet, mapGet, mapSet, relaxAll, relaxNeighbor,
    findEdge, findEdgeIn, qiAdd, qiLt, buildPathNodes, edgesOfPath, gW, eW, rW]

/-- C2 witness: the single-road network satisfies the data-model invariants,
`Dijkstra` returns exactly one route on it, and that route is optimal with a
consistent stored total. -/
theorem C2_witness :
    RouterInvariants gW ∧ Dijkstra gW "a" "b" = [rW] ∧
    ((∀ es, IsWalk gW "a" "b" es → rW.totalDistance ≤ walkCost es) ∧
      rW.totalDistance =
        (rW.edges.map (fun i => (mapGet gW.edges i).elim 0 MapEdge.length)).sum) :=
  ⟨gW_invariants, gW_dijkstra,
    C2_dijkstra_optimal gW_invariants (by decide) gW_dijkstra⟩

/-- Ambient input streams of the generator: the process-global `math/rand/v2`
draws (`rand.IntN`, `rand.Float64`, `rand.NormFloat64`), the `uuid.New()`
stream, and oracles for the library calls with no exact rational value
(`math.Log`, `math.Pi`, `delaunay.Triangulate`).  None of these is derived from
the configuration's `Seed` field, which the source never reads. -/
structure GenEnv where
  ints : Nat → Nat
  floats : Nat → ℚ
  norms : Nat → ℚ
  uuids : Nat → String
  logN : Nat → ℚ
  piQ : ℚ
  triangles : List (ℚ × ℚ) → List Nat

/-- The speed-tier selection duplicated across the three algorithms,
`BuildEdgesFromConnections` and `connectNodes`: 13.4 below 100, 22.2 below 300,
33.3 otherwise. -/
def speedTier (dist : ℚ) : ℚ :=
  if dist < 100 then 67 / 5 else if dist < 300 then 111 / 5 else 333 / 10

/-- The edge literal shared by the three generation algorithms: ID and
endpoints as given, tier base speed mirrored into fresh `RoadConditions`. -/
def mkGenEdge (id from2 to2 : String) (dist q : ℚ) : MapEdge :=
  { id := id, fromId := from2, toId := to2, length := dist
  , baseSpeedLimit := speedTier dist, surfaceQuality := q, bidirectional := true
  , conditions := some
      { congestion := 0, weatherMultiplier := 1, effectiveSpeedLimit := speedTier dist } }

/-- Setting `node.Connections[nb] = true` through the pointer held in the node
map: an update of the entry at the node's key (generated node maps always key
nodes by their IDs). -/
def addConn (nodes : List (String × MapNode)) (k nb : String) :
    List (String × MapNode) :=
  (mapGet nodes k).elim nodes fun n =>
    mapSet nodes k { n with connections := mapSet n.connections nb true }

/-- `generateNodes` of part_003: `N` nodes at positions drawn by
`uniformRandomDistributionSampler` (x from `rand.IntN(widthBound)` first, then
y from `rand.IntN(heightBound)`), keyed by fresh UUID strings. -/
def generateNodes (env : GenEnv) (N heightBound widthBound : Nat) :
    List (String × MapNode) :=
  (List.range N).foldl
    (fun nodes i =>
      let x : Nat := env.ints (2 * i) % widthBound
      let y : Nat := env.ints (2 * i + 1) % heightBound
      let id := env.uuids i
      mapSet nodes id
        { id := id, position := { x := (x : ℚ), y := (y : ℚ) }
        , ntype := "intersection", connections := [] })
    []

/-- Insertion step of the neighbour sort used by `KNNGraph`. -/
def insertByDist (p : String × ℚ) : List (String × ℚ) → List (String × ℚ)
  | [] => [p]
  | q :: rest => if q.2 ≤ p.2 then q :: insertByDist p rest else p :: q :: rest

/-- The `sort.Slice` call of `KNNGraph`, ordering candidate neighbours by
ascending distance.  `sort.Slice` is unstable; this stable insertion sort
realises one admissible result. -/
def sortByDist : List (String × ℚ) → List (String × ℚ)
  | [] => []
  | p :: rest => insertByDist p (sortByDist rest)

/-- One selected neighbour of the KNN inner loop: mark the connection in both
node entries and store the `cur.ID + "->" + other.ID` edge. -/
def knnAdd (g : MapGraph) (curKey : String) (cur : MapNode) (p : String × ℚ) :
    MapGraph :=
  (mapGet g.nodes p.1).elim g fun other =>
    let nodes1 := addConn g.nodes curKey other.id
    let nodes2 := addConn nodes1 p.1 cur.id
    let eid := cur.id ++ "->" ++ other.id
    { nodes := nodes2
    , edges := mapSet g.edges eid (mkGenEdge eid cur.id other.id p.2 (95 / 100)) }

/-- `KNNGraph` of part_007. -/
def KNNGraph (env : GenEnv) (N heightBound widthBound K : Nat) : MapGraph :=
  let nodes := generateNodes env N heightBound widthBound
  let ids := nodes.map Prod.fst
  ids.foldl
    (fun g id =>
      (mapGet g.nodes id).elim g fun cur =>
        let distances := (ids.filter (fun o => o ≠ id)).map
          (fun o => (o, (mapGet g.nodes o).elim 0 fun n =>
            distance cur.position n.position))
        ((sortByDist distances).take K).foldl (fun g2 p => knnAdd g2 id cur p) g)
    { nodes := nodes, edges := [] }

/-- `optimalRadius` of part_003, with `math.Log` and `math.Pi` supplied by the
environment oracles. -/
def optimalRadius (env : GenEnv) (N : Nat) (area : ℚ) : ℚ :=
  ratSqrt ((env.logN N * area) / (env.piQ * (N : ℚ)))

/-- All index pairs `i < j` of the ID list, in the double-loop order of
`RandomGeometricGraph`. -/
def pairsAfter : List String → List (String × String)
  | [] => []
  | a :: rest => rest.map (fun b => (a, b)) ++ pairsAfter rest

/-- One candidate pair of the RGG double loop: connect and store an edge when
the distance is within the radius. -/
def rggStep (r : ℚ) (g : MapGraph) (p : String × String) : MapGraph :=
  (mapGet g.nodes p.1).elim g fun a =>
    (mapGet g.nodes p.2).elim g fun b =>
      let d := distance a.position b.position
      if d ≤ r then
        let nodes1 := addConn g.nodes p.1 b.id
        let nodes2 := addConn nodes1 p.2 a.id
        let eid := a.id ++ "->" ++ b.id
        { nodes := nodes2
        , edges := mapSet g.edges eid (mkGenEdge eid a.id b.id d (95 / 100)) }
      else g

/-- `RandomGeometricGraph` of part_007.  The radius-mode constants `Sparse`
and `Connected` are the Go iota values 0 and 1. -/
def RandomGeometricGraph (env : GenEnv) (N heightBound widthBound : Nat)
    (mode : Nat) : MapGraph :=
  let nodes := generateNodes env N heightBound widthBound
  let area : ℚ := (heightBound : ℚ) * (widthBound : ℚ)
  let r0 := optimalRadius env N area
  let r1 := if mode = 0 then r0 * (3 / 5) else r0
  let r := if mode = 1 then r1 * (7 / 5) else r1
  let ids := nodes.map Prod.fst
  (pairsAfter ids).foldl (rggStep r) { nodes := nodes, edges := [] }

/-- Splitting the flat triangle index list of `delaunay.Triangulate` into the
triples read off at strides of 3. -/
def triChunks : List Nat → List (Nat × Nat × Nat)
  | a :: b :: c :: rest => (a, b, c) :: triChunks rest
  | _ => []

/-- `addEdge` of part_003: record the unordered pair under its canonically
ordered key, first insertion fixing the iteration position. -/
def addEdgePair (es : List (Nat × Nat)) (a b : Nat) : List (Nat × Nat) :=
  let p := if a > b then (b, a) else (a, b)
  if p ∈ es then es else es ++ [p]

/-- One recovered Delaunay pair: connect and store the `na.ID + "->" + nb.ID`
edge; an index outside the node list adds nothing (the Go code would
dereference nil there). -/
def delStep (ids : List String) (g : MapGraph) (p : Nat × Nat) : MapGraph :=
  (mapGet g.nodes (ids.getD p.1 "")).elim g fun na =>
    (mapGet g.nodes (ids.getD p.2 "")).elim g fun nb =>
      let d := distance na.position nb.position
      let nodes1 := addConn g.nodes na.id nb.id
      let nodes2 := addConn nodes1 nb.id na.id
      let eid := na.id ++ "->" ++ nb.id
      { nodes := nodes2
      , edges := mapSet g.edges eid (mkGenEdge eid na.id nb.id d (95 / 100)) }

/-- `DelaunayGraph` of part_007, with the triangulation supplied by the
environment oracle. -/
def DelaunayGraph (env : GenEnv) (N heightBound widthBound : Nat) : MapGraph :=
  let nodes := generateNodes env N heightBound widthBound
  let points := nodes.map (fun p => (p.2.position.x, p.2.position.y))
  let ids := nodes.map Prod.fst
  let tris := triChunks (env.triangles points)
  let edgeSet := tris.foldl
    (fun es t => addEdgePair (addEdgePair (addEdgePair es t.1 t.2.1) t.2.1 t.2.2) t.2.2 t.1)
    []
  edgeSet.foldl (delStep ids) { nodes := nodes, edges := [] }

/-- The neighbour scan of the BFS loop: enqueue a neighbour unless it is
already visited, marking it visited at once. -/
def bfsEnqueue (st : List String × List String) (nb : String) :
    List String × List String :=
  if nb ∈ st.2 then st else (st.1 ++ [nb], st.2 ++ [nb])

/-- The BFS of `findConnectedComponents`, run on the node map alone.  The Go
loop has no fuel; the callers below always pass enough for the queue to drain. -/
def bfs (nodes : List (String × MapNode)) :
    Nat → List String → List String → List String → List String × List String
  | 0, _, comp, visited => (comp, visited)
  | fuel + 1, queue, comp, visited =>
    match queue with
    | [] => (comp, visited)
    | current :: rest =>
      let comp2 := comp ++ [current]
      let nbrs := (mapGet nodes current).elim [] fun n => n.connections.map Prod.fst
      let st := nbrs.foldl bfsEnqueue (rest, visited)
      bfs nodes fuel st.1 comp2 st.2

/-- One node key of the outer `findConnectedComponents` loop: start a BFS when
the key is not yet visited. -/
def fccStep (nodes : List (String × MapNode))
    (st : List (List String) × List String) (p : String × MapNode) :
    List (List String) × List String :=
  if p.1 ∈ st.2 then st
  else
    let r := bfs nodes (2 * nodes.length + 2) [p.1] [] (st.2 ++ [p.1])
    (st.1 ++ [r.1], r.2)

/-- `findConnectedComponents` of part_004: one BFS per not-yet-visited node
key, in map order. -/
def findConnectedComponents (g : MapGraph) : List (List String) :=
  (g.nodes.foldl (fccStep g.nodes) ([], [])).1

/-- One adjacency step of the node map: `v` is a key of `u`'s connection map. -/
def StepConn (nodes : List (String × MapNode)) (u v : String) : Prop :=
  v ∈ (mapGet nodes u).elim [] fun n => n.connections.map Prod.fst

/-- Reachability along adjacency steps. -/
def Reach (nodes : List (String × MapNode)) : String → String → Prop :=
  Relation.ReflTransGen (StepConn nodes)

/-- The number of node keys not yet visited: the BFS fuel measure. -/
def unvisitedCount (nodes : List (String × MapNode)) (vis : List String) : Nat :=
  (nodes.map Prod.fst).countP (fun x => decide (¬ x ∈ vis))

/-- The node-map invariants every generated graph keeps: entries are keyed by
their node's ID, and the adjacency relation is symmetric and points only at
node keys. -/
def NodesInv (nodes : List (String × MapNode)) : Prop :=
  (∀ p ∈ nodes, p.2.id = p.1) ∧
  (∀ u v, StepConn nodes u v → v ∈ nodes.map Prod.fst ∧ StepConn nodes v u)

/-- `findClosestNodeInComponent` of part_004: the `component1` node realising
the strictly smallest cross-component distance, `none` standing for the
initial `math.Inf(1)`. -/
def findClosestNodeInComponent (g : MapGraph) (c1 c2 : List String) :
    Option MapNode :=
  (c1.foldl
    (fun acc id1 =>
      (mapGet g.nodes id1).elim acc fun node1 =>
        c2.foldl
          (fun acc2 id2 =>
            (mapGet g.nodes id2).elim acc2 fun node2 =>
              let d := distance node1.position node2.position
              if qiLt (some d) acc2.2 then (some node1, some d) else acc2)
          acc)
    ((none : Option MapNode), (none : Option ℚ))).1

/-- `connectNodes` of part_004: mutual connections plus one repair edge under
the canonically ordered dash key, quality 0.90. -/
def connectNodes (g : MapGraph) (n1 n2 : MapNode) : MapGraph :=
  let nodes1 := addConn g.nodes n1.id n2.id
  let nodes2 := addConn nodes1 n2.id n1.id
  let d := distance n1.position n2.position
  let eid := if n1.id > n2.id then n2.id ++ "-" ++ n1.id else n1.id ++ "-" ++ n2.id
  { nodes := nodes2
  , edges := mapSet g.edges eid
      { id := eid, fromId := n1.id, toId := n2.id, length := d
      , baseSpeedLimit := speedTier d, surfaceQuality := 9 / 10, bidirectional := true
      , conditions := some
          { congestion := 0, weatherMultiplier := 1, effectiveSpeedLimit := speedTier d } } }

/-- One iteration of the repair loop: join components `i` and `i + 1` at their
closest node pair when both selections succeed. -/
def repairStep (comps : List (List String)) (g2 : MapGraph) (i : Nat) : MapGraph :=
  let c1 := comps.getD i []
  let c2 := comps.getD (i + 1) []
  (findClosestNodeInComponent g2 c1 c2).elim g2 fun n1 =>
    (findClosestNodeInComponent g2 c2 c1).elim g2 fun n2 =>
      connectNodes g2 n1 n2

/-- `EnsureGraphConnectivity` of part_004: components are computed once, then
consecutive components are joined at their closest node pair. -/
def EnsureGraphConnectivity (g : MapGraph) : MapGraph :=
  if g.nodes.length = 0 then g
  else
    let comps := findConnectedComponents g
    if comps.length ≤ 1 then g
    else (List.range (comps.length - 1)).foldl (repairStep comps) g

/-- The quality clamp `math.Max(0.5, math.Min(1.0, q))` of
`ApplyWeightVariation`. -/
def clampQuality (x : ℚ) : ℚ := max (1 / 2) (min 1 x)

/-- `WeightVariationConfig` of part_007. -/
structure WeightVariationConfig where
  curvatureMin : ℚ
  curvatureMax : ℚ
  speedVariation : ℚ
  qualityMean : ℚ
  qualityStdDev : ℚ
  useDistanceFromCenter : Bool

/-- `MapBounds` of part_007. -/
structure MapBounds where
  height : Nat
  width : Nat

/-- The per-edge body of `ApplyWeightVariation` for the `j`-th edge in map
order: curvature stretch from `rand.Float64`, speed jitter mirrored into the
conditions, and a clamped quality with an optional centre bonus. -/
def varyEdge (env : GenEnv) (cfg : WeightVariationConfig) (g : MapGraph)
    (bounds : MapBounds) (j : Nat) (e : MapEdge) : MapEdge :=
  let centerX : ℚ := (bounds.width : ℚ) / 2
  let centerY : ℚ := (bounds.height : ℚ) / 2
  let maxDistFromCenter := ratSqrt (centerX * centerX + centerY * centerY)
  let curvature := cfg.curvatureMin + env.floats (2 * j) * (cfg.curvatureMax - cfg.curvatureMin)
  let length2 := e.length * curvature
  let speedVariation := 1 + (env.floats (2 * j + 1) * 2 - 1) * cfg.speedVariation
  let base2 := e.baseSpeedLimit * speedVariation
  let conds2 := e.conditions.map (fun c => { c with effectiveSpeedLimit := base2 })
  let quality1 := clampQuality (env.norms j * cfg.qualityStdDev + cfg.qualityMean)
  let quality2 :=
    if cfg.useDistanceFromCenter then
      (mapGet g.nodes e.fromId).elim quality1 fun fromNode =>
        (mapGet g.nodes e.toId).elim quality1 fun toNode =>
          let midX := (fromNode.position.x + toNode.position.x) / 2
          let midY := (fromNode.position.y + toNode.position.y) / 2
          let distFromCenter :=
            ratSqrt ((midX - centerX) * (midX - centerX) + (midY - centerY) * (midY - centerY))
          let normalizedDist := distFromCenter / maxDistFromCenter
          let centerBonus := (1 - normalizedDist) * (1 / 10)
          clampQuality (quality1 + centerBonus)
    else quality1
  { e with length := length2, baseSpeedLimit := base2, surfaceQuality := quality2
         , conditions := conds2 }

/-- `ApplyWeightVariation` of part_004: every edge of the map is rewritten in
place, consuming two `rand.Float64` draws and one `rand.NormFloat64` draw per
edge in map order. -/
def ApplyWeightVariation (env : GenEnv) (g : MapGraph) (cfg : WeightVariationConfig)
    (bounds : MapBounds) : MapGraph :=
  { g with edges := g.edges.enum.map (fun q => (q.2.1, varyEdge env cfg g bounds q.1 q.2.2)) }

/-- `MapGeneratorConfig` of part_007.  `Algorithm` is a string type in Go;
`RadiusMode` an int. -/
structure MapGeneratorConfig where
  bounds : MapBounds
  seed : Int
  algorithm : String
  n : Nat
  k : Nat
  radiusMode : Nat
  weightVariation : Option WeightVariationConfig
  ensureConnectivity : Bool

/-- `Generate` of part_007: algorithm dispatch, then optional connectivity
repair, then optional weight variation; an unknown algorithm returns the empty
graph at once.  The configuration's `Seed` is never consulted. -/
def Generate (env : GenEnv) (cfg : MapGeneratorConfig) : MapGraph :=
  let base :=
    if cfg.algorithm = "rgg" then
      some (RandomGeometricGraph env cfg.n cfg.bounds.height cfg.bounds.width cfg.radiusMode)
    else if cfg.algorithm = "knn" then
      some (KNNGraph env cfg.n cfg.bounds.height cfg.bounds.width cfg.k)
    else if cfg.algorithm = "delaunay" then
      some (DelaunayGraph env cfg.n cfg.bounds.height cfg.bounds.width)
    else none
  base.elim { nodes := [], edges := [] } fun g0 =>
    let g1 := if cfg.ensureConnectivity then EnsureGraphConnectivity g0 else g0
    cfg.weightVariation.elim g1 fun wv => ApplyWeightVariation env g1 wv cfg.bounds

/-- A two-valued UUID stream for two-node runs. -/
def uuidsAB : Nat → String := fun i => if i = 0 then "a" else "b"

/-- Ambient stream state for a first run: every integer draw is 0, so both
nodes land on the origin. -/
def envTwoA : GenEnv :=
  { ints := fun _ => 0, floats := fun _ => 0, norms := fun _ => 0
  , uuids := uuidsAB, logN := fun _ => 0, piQ := 1, triangles := fun _ => [] }

/-- Ambient stream state for a second run of the same configuration: the third
integer draw is 1, so the second node lands at x = 1 instead. -/
def envTwoB : GenEnv :=
  { ints := fun i => if i = 2 then 1 else 0, floats := fun _ => 0, norms := fun _ => 0
  , uuids := uuidsAB, logN := fun _ => 0, piQ := 1, triangles := fun _ => [] }

/-- A KNN configuration with two nodes, one neighbour each, on a 2 by 2 grid,
with repair and variation off. -/
def cfgKNN2 : MapGeneratorConfig :=
  { bounds := { height := 2, width := 2 }, seed := 0, algorithm := "knn"
  , n := 2, k := 1, radiusMode := 0, weightVariation := none
  , ensureConnectivity := false }

/-- C1: `Generate` never reads `cfg.Seed` — graphs for configurations
differing only in seed are definitionally equal — and its output does depend
on the ambient process-global random and UUID streams: two runs of the same
configuration under different ambient stream states yield edge-length
multisets {0,0} and {1,1}, so the determinism-by-seed contract fails. -/
theorem C1_seed_unused :
    (∀ (env : GenEnv) (cfg : MapGeneratorConfig) (s1 s2 : Int),
      Generate env { cfg with seed := s1 } = Generate env { cfg with seed := s2 }) ∧
    (Generate envTwoA cfgKNN2).edges.map (fun p => p.2.length) = [0, 0] ∧
    (Generate envTwoB cfgKNN2).edges.map (fun p => p.2.length) = [1, 1] ∧
    ¬ ((Generate envTwoA cfgKNN2).edges.map (fun p => p.2.length)).Perm
        ((Generate envTwoB cfgKNN2).edges.map (fun p => p.2.length)) := by
  have hA : (Generate envTwoA cfgKNN2).edges.map (fun p => p.2.length) = [0, 0] := by
    simp [Generate, KNNGraph, generateNodes, mapSet, mapGet, knnAdd, addConn, sortByDist,
      insertByDist, mkGenEdge, speedTier, distance, ratSqrt, envTwoA, uuidsAB, cfgKNN2,
      List.range_succ]
  have hB : (Generate envTwoB cfgKNN2).edges.map (fun p => p.2.length) = [1, 1] := by
    simp [Generate, KNNGraph, generateNodes, mapSet, mapGet, knnAdd, addConn, sortByDist,
      insertByDist, mkGenEdge, speedTier, distance, ratSqrt, envTwoB, uuidsAB, cfgKNN2,
      List.range_succ]
  refine ⟨fun env cfg s1 s2 => by cases cfg; rfl, hA, hB, ?_⟩
  intro h
  rw [hA, hB] at h
  have h0 := h.mem_iff.mp (by simp : (0 : ℚ) ∈ [0, 0])
  norm_num at h0

theorem mem_mapSet {α : Type} {m : List (String × α)} {k : String} {v : α}
    {p : String × α} (h : p ∈ mapSet m k v) : p ∈ m ∨ p = (k, v) := by
  induction m with
  | nil =>
    rw [mapSet] at h
    exact Or.inr (List.mem_singleton.mp h)
  | cons q rest ih =>
    obtain ⟨k1, v1⟩ := q
    rw [mapSet] at h
    by_cases hk : k1 = k
    · rw [if_pos hk] at h
      rcases List.mem_cons.mp h with h | h
      · subst hk
        exact Or.inr h
      · exact Or.inl (List.mem_cons_of_mem _ h)
    · rw [if_neg hk] at h
      rcases List.mem_cons.mp h with h | h
      · exact Or.inl (List.mem_cons.mpr (Or.inl h))
      · rcases ih h with h2 | h2
        · exact Or.inl (List.mem_cons_of_mem _ h2)
        · exact Or.inr h2

/-- Edge-set invariants preserved by a graph-valued fold whose step preserves
them for every element satisfying `Q`. -/
theorem foldl_edges_inv {α : Type} (P : String × MapEdge → Prop) (Q : α → Prop)
    (f : MapGraph → α → MapGraph)
    (hf : ∀ g a, Q a → (∀ p ∈ g.edges, P p) → ∀ p ∈ (f g a).edges, P p) :
    ∀ (l : List α), (∀ a ∈ l, Q a) → ∀ g, (∀ p ∈ g.edges, P p) →
      ∀ p ∈ (l.foldl f g).edges, P p := by
  intro l
  induction l with
  | nil =>
    intro _ g hg
    exact hg
  | cons a rest ih =>
    intro hQ g hg
    rw [List.foldl_cons]
    exact ih (fun b hb => hQ b (List.mem_cons_of_mem a hb)) (f g a)
      (hf g a (hQ a (List.mem_cons_self a rest)) hg)

theorem speedTier_pos (d : ℚ) : 0 < speedTier d := by
  rw [speedTier]
  split
  · norm_num
  · split <;> norm_num

theorem clampQuality_mem (x : ℚ) : 1 / 2 ≤ clampQuality x ∧ clampQuality x ≤ 1 :=
  ⟨le_max_left _ _, max_le (by norm_num) (min_le_left _ _)⟩

theorem distance_nonneg (a b : Vector2D) : 0 ≤ distance a b := ratSqrt_nonneg _

theorem mem_insertByDist {p q : String × ℚ} : ∀ {l : List (String × ℚ)},
    q ∈ insertByDist p l → q = p ∨ q ∈ l := by
  intro l
  induction l with
  | nil =>
    intro h
    rw [insertByDist] at h
    exact Or.inl (List.mem_singleton.mp h)
  | cons a rest ih =>
    intro h
    rw [insertByDist] at h
    by_cases hle : a.2 ≤ p.2
    · rw [if_pos hle] at h
      rcases List.mem_cons.mp h with h | h
      · exact Or.inr (List.mem_cons.mpr (Or.inl h))
      · rcases ih h with h2 | h2
        · exact Or.inl h2
        · exact Or.inr (List.mem_cons_of_mem a h2)
    · rw [if_neg hle] at h
      rcases List.mem_cons.mp h with h | h
      · exact Or.inl h
      · exact Or.inr h

theorem mem_sortByDist {q : String × ℚ} : ∀ {l : List (String × ℚ)},
    q ∈ sortByDist l → q ∈ l := by
  intro l
  induction l with
  | nil =>
    intro h
    rw [sortByDist] at h
    exact h
  | cons p rest ih =>
    intro h
    rw [sortByDist] at h
    rcases mem_insertByDist h with h2 | h2
    · exact List.mem_cons.mpr (Or.inl h2)
    · exact List.mem_cons_of_mem p (ih h2)

theorem mem_enumFrom_snd {α : Type} :
    ∀ (l : List α) (n : Nat) {p : Nat × α}, p ∈ l.enumFrom n → p.2 ∈ l := by
  intro l
  induction l with
  | nil =>
    intro n p h
    cases h
  | cons a rest ih =>
    intro n p h
    rw [List.enumFrom] at h
    rcases List.mem_cons.mp h with h | h
    · rw [h]
      exact List.mem_cons_self a rest
    · exact List.mem_cons_of_mem a (ih (n + 1) h)

theorem varyEdge_id (env : GenEnv) (cfg : WeightVariationConfig) (g : MapGraph)
    (bounds : MapBounds) (j : Nat) (e : MapEdge) :
    (varyEdge env cfg g bounds j e).id = e.id := rfl

theorem varyEdge_fromId (env : GenEnv) (cfg : WeightVariationConfig) (g : MapGraph)
    (bounds : MapBounds) (j : Nat) (e : MapEdge) :
    (varyEdge env cfg g bounds j e).fromId = e.fromId := rfl

theorem varyEdge_toId (env : GenEnv) (cfg : WeightVariationConfig) (g : MapGraph)
    (bounds : MapBounds) (j : Nat) (e : MapEdge) :
    (varyEdge env cfg g bounds j e).toId = e.toId := rfl

/-- The joint invariant of every edge produced by the generation algorithms and
the repair pass, before weight variation: keys equal IDs, IDs are either
creation-ordered arrow IDs or the repair pass's canonical dash IDs, and the
attributes are in range (with a possibly zero length). -/
def GenEdgeInv (p : String × MapEdge) : Prop :=
  p.1 = p.2.id ∧
  (p.2.id = p.2.fromId ++ "->" ++ p.2.toId ∨
   p.2.id = p.2.fromId ++ "-" ++ p.2.toId ∨
   p.2.id = p.2.toId ++ "-" ++ p.2.fromId) ∧
  0 ≤ p.2.length ∧ 0 < p.2.baseSpeedLimit ∧
  1 / 2 ≤ p.2.surfaceQuality ∧ p.2.surfaceQuality ≤ 1

theorem mkGenEdge_inv {f t : String} {d : ℚ} (hd : 0 ≤ d) :
    GenEdgeInv (f ++ "->" ++ t, mkGenEdge (f ++ "->" ++ t) f t d (95 / 100)) :=
  ⟨rfl, Or.inl rfl, hd, speedTier_pos d, by norm_num [mkGenEdge], by norm_num [mkGenEdge]⟩

theorem knnAdd_inv {g : MapGraph} {curKey : String} {cur : MapNode} {p : String × ℚ}
    (hq : 0 ≤ p.2) (hg : ∀ r ∈ g.edges, GenEdgeInv r) :
    ∀ r ∈ (knnAdd g curKey cur p).edges, GenEdgeInv r := by
  intro r hr
  rw [knnAdd] at hr
  rcases ho : mapGet g.nodes p.1 with _ | other
  · rw [ho] at hr
    exact hg r hr
  · rw [ho] at hr
    simp only [Option.elim] at hr
    rcases mem_mapSet hr with h | h
    · exact hg r h
    · rw [h]
      exact mkGenEdge_inv hq

theorem KNNGraph_edges_inv (env : GenEnv) (N hB wB K : Nat) :
    ∀ p ∈ (KNNGraph env N hB wB K).edges, GenEdgeInv p := by
  simp only [KNNGraph]
  refine foldl_edges_inv GenEdgeInv (fun _ => True) _ ?_ _ (fun _ _ => trivial) _
    (fun p hp => absurd hp (List.not_mem_nil p))
  intro g id _ hg
  rcases hc : mapGet g.nodes id with _ | cur
  · exact hg
  · simp only [Option.elim]
    refine foldl_edges_inv GenEdgeInv (fun q => 0 ≤ q.2) _
      (fun g2 q hq hg2 => knnAdd_inv hq hg2) _ ?_ _ hg
    intro q hq2
    have h1 := mem_sortByDist (List.take_subset _ _ hq2)
    obtain ⟨o, ho, hqo⟩ := List.mem_map.mp h1
    rw [← hqo]
    rcases h3 : mapGet g.nodes o with _ | n
    · exact le_refl 0
    · exact distance_nonneg _ _

theorem rggStep_inv {r : ℚ} {g : MapGraph} {p : String × String}
    (hg : ∀ q ∈ g.edges, GenEdgeInv q) :
    ∀ q ∈ (rggStep r g p).edges, GenEdgeInv q := by
  intro q hq
  rw [rggStep] at hq
  rcases ha : mapGet g.nodes p.1 with _ | a
  · rw [ha] at hq
    exact hg q hq
  · rw [ha] at hq
    simp only [Option.elim] at hq
    rcases hb : mapGet g.nodes p.2 with _ | b
    · rw [hb] at hq
      exact hg q hq
    · rw [hb] at hq
      simp only [Option.elim] at hq
      by_cases hd : distance a.position b.position ≤ r
      · rw [if_pos hd] at hq
        rcases mem_mapSet hq with h | h
        · exact hg q h
        · rw [h]
          exact mkGenEdge_inv (distance_nonneg _ _)
      · rw [if_neg hd] at hq
        exact hg q hq

theorem RandomGeometricGraph_edges_inv (env : GenEnv) (N hB wB mode : Nat) :
    ∀ p ∈ (RandomGeometricGraph env N hB wB mode).edges, GenEdgeInv p := by
  simp only [RandomGeometricGraph]
  exact foldl_edges_inv GenEdgeInv (fun _ => True) _
    (fun g a _ hg => rggStep_inv hg) _ (fun _ _ => trivial) _
    (fun p hp => absurd hp (List.not_mem_nil p))

theorem delStep_inv {ids : List String} {g : MapGraph} {p : Nat × Nat}
    (hg : ∀ q ∈ g.edges, GenEdgeInv q) :
    ∀ q ∈ (delStep ids g p).edges, GenEdgeInv q := by
  intro q hq
  rw [delStep] at hq
  rcases ha : mapGet g.nodes (ids.getD p.1 "") with _ | na
  · rw [ha] at hq
    exact hg q hq
  · rw [ha] at hq
    simp only [Option.elim] at hq
    rcases hb : mapGet g.nodes (ids.getD p.2 "") with _ | nb
    · rw [hb] at hq
      exact hg q hq
    · rw [hb] at hq
      simp only [Option.elim] at hq
      rcases mem_mapSet hq with h | h
      · exact hg q h
      · rw [h]
        exact mkGenEdge_inv (distance_nonneg _ _)

theorem DelaunayGraph_edges_inv (env : GenEnv) (N hB wB : Nat) :
    ∀ p ∈ (DelaunayGraph env N hB wB).edges, GenEdgeInv p := by
  simp only [DelaunayGraph]
  exact foldl_edges_inv GenEdgeInv (fun _ => True) _
    (fun g a _ hg => delStep_inv hg) _ (fun _ _ => trivial) _
    (fun p hp => absurd hp (List.not_mem_nil p))

theorem connectNodes_inv {g : MapGraph} {n1 n2 : MapNode}
    (hg : ∀ p ∈ g.edges, GenEdgeInv p) :
    ∀ p ∈ (connectNodes g n1 n2).edges, GenEdgeInv p := by
  intro p hp
  simp only [connectNodes] at hp
  rcases mem_mapSet hp with h | h
  · exact hg p h
  · rw [h]
    refine ⟨rfl, ?_, distance_nonneg _ _, speedTier_pos _, by norm_num, by norm_num⟩
    by_cases hgt : n1.id > n2.id
    · rw [if_pos hgt]
      exact Or.inr (Or.inr rfl)
    · rw [if_neg hgt]
      exact Or.inr (Or.inl rfl)

theorem repairStep_inv {comps : List (List String)} {g2 : MapGraph} {i : Nat}
    (hg : ∀ p ∈ g2.edges, GenEdgeInv p) :
    ∀ p ∈ (repairStep comps g2 i).edges, GenEdgeInv p := by
  simp only [repairStep]
  rcases h1 : findClosestNodeInComponent g2 (comps.getD i []) (comps.getD (i + 1) [])
    with _ | n1
  · exact hg
  · simp only [Option.elim]
    rcases h2 : findClosestNodeInComponent g2 (comps.getD (i + 1) []) (comps.getD i [])
      with _ | n2
    · exact hg
    · simp only [Option.elim]
      exact connectNodes_inv hg

theorem EnsureGraphConnectivity_edges_inv {g : MapGraph}
    (hg : ∀ p ∈ g.edges, GenEdgeInv p) :
    ∀ p ∈ (EnsureGraphConnectivity g).edges, GenEdgeInv p := by
  simp only [EnsureGraphConnectivity]
  by_cases h0 : g.nodes.length = 0
  · rw [if_pos h0]
    exact hg
  · rw [if_neg h0]
    by_cases h1 : (findConnectedComponents g).length ≤ 1
    · rw [if_pos h1]
      exact hg
    · rw [if_neg h1]
      exact foldl_edges_inv GenEdgeInv (fun _ => True) _
        (fun g2 a _ hg2 => repairStep_inv hg2) _ (fun _ _ => trivial) _ hg

/-- Every run of `Generate` is the empty graph, a repaired algorithm graph
whose edges satisfy `GenEdgeInv`, or the weight variation of such a graph. -/
theorem Generate_cases (env : GenEnv) (cfg : MapGeneratorConfig) :
    Generate env cfg = { nodes := [], edges := [] } ∨
    ∃ g1, (∀ p ∈ g1.edges, GenEdgeInv p) ∧
      (Generate env cfg = g1 ∨
        ∃ wv, cfg.weightVariation = some wv ∧
          Generate env cfg = ApplyWeightVariation env g1 wv cfg.bounds) := by
  have hens : ∀ g0 : MapGraph, (∀ p ∈ g0.edges, GenEdgeInv p) →
      ∀ p ∈ (if cfg.ensureConnectivity then EnsureGraphConnectivity g0 else g0).edges,
        GenEdgeInv p := by
    intro g0 h0
    by_cases he : cfg.ensureConnectivity = true
    · rw [if_pos he]
      exact EnsureGraphConnectivity_edges_inv h0
    · rw [if_neg he]
      exact h0
  have hvar : ∀ g1 : MapGraph,
      cfg.weightVariation.elim g1
          (fun wv => ApplyWeightVariation env g1 wv cfg.bounds) = g1 ∨
        ∃ wv, cfg.weightVariation = some wv ∧
          cfg.weightVariation.elim g1
            (fun wv => ApplyWeightVariation env g1 wv cfg.bounds) =
            ApplyWeightVariation env g1 wv cfg.bounds := by
    intro g1
    rcases hwv : cfg.weightVariation with _ | wv
    · exact Or.inl rfl
    · exact Or.inr ⟨wv, rfl, rfl⟩
  simp only [Generate]
  by_cases h1 : cfg.algorithm = "rgg"
  · rw [if_pos h1]
    simp only [Option.elim]
    refine Or.inr ⟨_, hens _ (RandomGeometricGraph_edges_inv env cfg.n cfg.bounds.height
      cfg.bounds.width cfg.radiusMode), ?_⟩
    rcases hvar (if cfg.ensureConnectivity then
        EnsureGraphConnectivity (RandomGeometricGraph env cfg.n cfg.bounds.height
          cfg.bounds.width cfg.radiusMode)
      else RandomGeometricGraph env cfg.n cfg.bounds.height cfg.bounds.width
        cfg.radiusMode) with h | h
    · exact Or.inl h
    · exact Or.inr h
  · rw [if_neg h1]
    by_cases h2 : cfg.algorithm = "knn"
    · rw [if_pos h2]
      simp only [Option.elim]
      refine Or.inr ⟨_, hens _ (KNNGraph_edges_inv env cfg.n cfg.bounds.height
        cfg.bounds.width cfg.k), ?_⟩
      rcases hvar (if cfg.ensureConnectivity then
          EnsureGraphConnectivity (KNNGraph env cfg.n cfg.bounds.height
            cfg.bounds.width cfg.k)
        else KNNGraph env cfg.n cfg.bounds.height cfg.bounds.width cfg.k) with h | h
      · exact Or.inl h
      · exact Or.inr h
    · rw [if_neg h2]
      by_cases h3 : cfg.algorithm = "delaunay"
      · rw [if_pos h3]
        simp only [Option.elim]
        refine Or.inr ⟨_, hens _ (DelaunayGraph_edges_inv env cfg.n cfg.bounds.height
          cfg.bounds.width), ?_⟩
        rcases hvar (if cfg.ensureConnectivity then
            EnsureGraphConnectivity (DelaunayGraph env cfg.n cfg.bounds.height
              cfg.bounds.width)
          else DelaunayGraph env cfg.n cfg.bounds.height cfg.bounds.width) with h | h
        · exact Or.inl h
        · exact Or.inr h
      · rw [if_neg h3]
        exact Or.inl rfl

/-- The id-shape part of the edge invariant: keys equal IDs and IDs are arrow
IDs or repair dash IDs. -/
def IdShape (p : String × MapEdge) : Prop :=
  p.1 = p.2.id ∧
  (p.2.id = p.2.fromId ++ "->" ++ p.2.toId ∨
   p.2.id = p.2.fromId ++ "-" ++ p.2.toId ∨
   p.2.id = p.2.toId ++ "-" ++ p.2.fromId)

/-- The attribute-range part of the edge invariant as it survives weight
variation: a nonnegative length, a positive base speed and a clamped quality. -/
def EdgeRanges (p : String × MapEdge) : Prop :=
  0 ≤ p.2.length ∧ 0 < p.2.baseSpeedLimit ∧
  1 / 2 ≤ p.2.surfaceQuality ∧ p.2.surfaceQuality ≤ 1

theorem GenEdgeInv_ranges {p : String × MapEdge} (h : GenEdgeInv p) : EdgeRanges p :=
  ⟨h.2.2.1, h.2.2.2.1, h.2.2.2.2.1, h.2.2.2.2.2⟩

theorem applyWeightVariation_id_shape {env : GenEnv} {g : MapGraph}
    {wv : WeightVariationConfig} {bounds : MapBounds}
    (hg : ∀ p ∈ g.edges, IdShape p) :
    ∀ p ∈ (ApplyWeightVariation env g wv bounds).edges, IdShape p := by
  intro p hp
  simp only [ApplyWeightVariation] at hp
  obtain ⟨q, hq, hqe⟩ := List.mem_map.mp hp
  have hmem : q.2 ∈ g.edges := mem_enumFrom_snd g.edges 0 hq
  have h2 := hg q.2 hmem
  rw [← hqe]
  refine ⟨?_, ?_⟩
  · show q.2.1 = (varyEdge env wv g bounds q.1 q.2.2).id
    rw [varyEdge_id]
    exact h2.1
  · show (varyEdge env wv g bounds q.1 q.2.2).id =
        (varyEdge env wv g bounds q.1 q.2.2).fromId ++ "->" ++
          (varyEdge env wv g bounds q.1 q.2.2).toId ∨ _ ∨ _
    rw [varyEdge_id, varyEdge_fromId, varyEdge_toId]
    exact h2.2

theorem varyEdge_ranges {env : GenEnv} {cfg : WeightVariationConfig} {g : MapGraph}
    {bounds : MapBounds} {j : Nat} {e : MapEdge}
    (hf0 : 0 ≤ env.floats (2 * j) ∧ env.floats (2 * j) < 1)
    (hf1 : 0 ≤ env.floats (2 * j + 1) ∧ env.floats (2 * j + 1) < 1)
    (hc : 0 ≤ cfg.curvatureMin ∧ cfg.curvatureMin ≤ cfg.curvatureMax)
    (hs : 0 ≤ cfg.speedVariation ∧ cfg.speedVariation < 1)
    (hl : 0 ≤ e.length) (hb : 0 < e.baseSpeedLimit) :
    0 ≤ (varyEdge env cfg g bounds j e).length ∧
    0 < (varyEdge env cfg g bounds j e).baseSpeedLimit ∧
    1 / 2 ≤ (varyEdge env cfg g bounds j e).surfaceQuality ∧
    (varyEdge env cfg g bounds j e).surfaceQuality ≤ 1 := by
  have hcv : 0 ≤ cfg.curvatureMin +
      env.floats (2 * j) * (cfg.curvatureMax - cfg.curvatureMin) := by
    have h1 : (0 : ℚ) ≤ cfg.curvatureMax - cfg.curvatureMin := by linarith [hc.2]
    have h2 := mul_nonneg hf0.1 h1
    linarith [hc.1]
  have hsv : 0 < 1 + (env.floats (2 * j + 1) * 2 - 1) * cfg.speedVariation := by
    nlinarith [mul_nonneg hf1.1 hs.1, hs.2, hs.1]
  have hq2 : 1 / 2 ≤ (varyEdge env cfg g bounds j e).surfaceQuality ∧
      (varyEdge env cfg g bounds j e).surfaceQuality ≤ 1 := by
    simp only [varyEdge]
    by_cases hud : cfg.useDistanceFromCenter = true
    · rw [if_pos hud]
      rcases mapGet g.nodes e.fromId with _ | fn
      · simp only [Option.elim]
        exact clampQuality_mem _
      · simp only [Option.elim]
        rcases mapGet g.nodes e.toId with _ | tn
        · simp only [Option.elim]
          exact clampQuality_mem _
        · simp only [Option.elim]
          exact clampQuality_mem _
    · rw [if_neg hud]
      exact clampQuality_mem _
  refine ⟨?_, ?_, hq2.1, hq2.2⟩
  · show 0 ≤ e.length * (cfg.curvatureMin +
      env.floats (2 * j) * (cfg.curvatureMax - cfg.curvatureMin))
    exact mul_nonneg hl hcv
  · show 0 < e.baseSpeedLimit *
      (1 + (env.floats (2 * j + 1) * 2 - 1) * cfg.speedVariation)
    exact mul_pos hb hsv

theorem applyWeightVariation_ranges {env : GenEnv} {g : MapGraph}
    {wv : WeightVariationConfig} {bounds : MapBounds}
    (hf : ∀ i, 0 ≤ env.floats i ∧ env.floats i < 1)
    (hc : 0 ≤ wv.curvatureMin ∧ wv.curvatureMin ≤ wv.curvatureMax)
    (hs : 0 ≤ wv.speedVariation ∧ wv.speedVariation < 1)
    (hg : ∀ p ∈ g.edges, EdgeRanges p) :
    ∀ p ∈ (ApplyWeightVariation env g wv bounds).edges, EdgeRanges p := by
  intro p hp
  simp only [ApplyWeightVariation] at hp
  obtain ⟨q, hq, hqe⟩ := List.mem_map.mp hp
  have hmem : q.2 ∈ g.edges := mem_enumFrom_snd g.edges 0 hq
  have h2 := hg q.2 hmem
  rw [← hqe]
  exact varyEdge_ranges (hf _) (hf _) hc hs h2.1 h2.2.1

/-- C3 counterexample: a two-node KNN run stores the one unordered adjacency
pair {a, b} as TWO map edges, keyed by the creation-ordered arrow IDs
`a->b` and `b->a` with opposite endpoint orientations — not as a single edge
keyed by the lexicographic minimum and maximum with a separator. -/
theorem C3_counterexample :
    (Generate envTwoA cfgKNN2).edges.map (fun p => (p.1, p.2.fromId, p.2.toId)) =
      [("a->b", "a", "b"), ("b->a", "b", "a")] := by
  simp [Generate, KNNGraph, generateNodes, mapSet, mapGet, knnAdd, addConn, sortByDist,
    insertByDist, mkGenEdge, speedTier, distance, ratSqrt, envTwoA, uuidsAB, cfgKNN2,
    List.range_succ]

/-- C3 (amended): in every generated graph each edge-map key equals the edge's
ID, and that ID is either the creation-ordered `From + "->" + To` arrow ID
produced by the three algorithms (so the `(u,v)` and `(v,u)` directions do NOT
collide and an unordered pair may be stored twice) or the canonically ordered
`min + "-" + max` dash ID of a connectivity-repair edge. -/
theorem C3_edge_ids (env : GenEnv) (cfg : MapGeneratorConfig) :
    ∀ p ∈ (Generate env cfg).edges,
      p.1 = p.2.id ∧
      (p.2.id = p.2.fromId ++ "->" ++ p.2.toId ∨
       p.2.id = p.2.fromId ++ "-" ++ p.2.toId ∨
       p.2.id = p.2.toId ++ "-" ++ p.2.fromId) := by
  intro p hp
  rcases Generate_cases env cfg with h | ⟨g1, hinv, h | ⟨wv, hwvs, h⟩⟩
  · rw [h] at hp
    exact absurd hp (List.not_mem_nil p)
  · rw [h] at hp
    exact ⟨(hinv p hp).1, (hinv p hp).2.1⟩
  · rw [h] at hp
    exact applyWeightVariation_id_shape (fun q hq => ⟨(hinv q hq).1, (hinv q hq).2.1⟩) p hp

/-- The concrete `a->b` edge of the two-node KNN run. -/
def eAB : MapEdge := mkGenEdge "a->b" "a" "b" 0 (95 / 100)

theorem eAB_mem : ("a->b", eAB) ∈ (Generate envTwoA cfgKNN2).edges := by
  simp [Generate, KNNGraph, generateNodes, mapSet, mapGet, knnAdd, addConn, sortByDist,
    insertByDist, eAB, mkGenEdge, distance, ratSqrt, envTwoA, uuidsAB, cfgKNN2,
    List.range_succ]

/-- C3 witness: the amended id-shape theorem instantiated at the `a->b` edge of
the two-node KNN run. -/
theorem C3_witness :
    ("a->b", eAB) ∈ (Generate envTwoA cfgKNN2).edges ∧
    ("a->b" = eAB.id ∧
      (eAB.id = eAB.fromId ++ "->" ++ eAB.toId ∨
       eAB.id = eAB.fromId ++ "-" ++ eAB.toId ∨
       eAB.id = eAB.toId ++ "-" ++ eAB.fromId)) :=
  ⟨eAB_mem, C3_edge_ids envTwoA cfgKNN2 ("a->b", eAB) eAB_mem⟩

/-- Weight variation flipping the sign of the base speed: a speed-variation
amplitude of 2 with a zero float draw multiplies the base by −1. -/
def wvFlip : WeightVariationConfig :=
  { curvatureMin := 1, curvatureMax := 1, speedVariation := 2
  , qualityMean := 9 / 10, qualityStdDev := 0, useDistanceFromCenter := false }

/-- The two-node KNN configuration on a 1 by 1 grid (all positions coincide)
with the sign-flipping weight variation. -/
def cfgKNN2V : MapGeneratorConfig :=
  { bounds := { height := 1, width := 1 }, seed := 0, algorithm := "knn"
  , n := 2, k := 1, radiusMode := 0, weightVariation := some wvFlip
  , ensureConnectivity := false }

/-- C5 counterexample: a generated graph whose every edge has length 0 (the
two nodes coincide, so `length > 0` fails) and negative base speed limit
(`speedVariation = 2` makes the jitter multiplier −1, so `baseSpeedLimit > 0`
fails). -/
theorem C5_counterexample :
    (Generate envTwoA cfgKNN2V).edges.map (fun p => (p.2.length, p.2.baseSpeedLimit)) =
      [(0, -(67 / 5)), (0, -(67 / 5))] ∧
    ¬ (0 < (0 : ℚ)) ∧ (-(67 / 5) : ℚ) < 0 := by
  refine ⟨?_, by norm_num, by norm_num⟩
  simp [Generate, KNNGraph, generateNodes, mapSet, mapGet, knnAdd, addConn, sortByDist,
    insertByDist, mkGenEdge, speedTier, distance, ratSqrt, envTwoA, uuidsAB, cfgKNN2V,
    wvFlip, ApplyWeightVariation, varyEdge, clampQuality, List.range_succ, List.enum,
    List.enumFrom]
  norm_num

/-- C5 (amended): in every generated graph — under the rand.Float64 contract
that float draws lie in [0,1), and for a weight-variation configuration with
0 ≤ CurvatureMin ≤ CurvatureMax and 0 ≤ SpeedVariation < 1 — every edge
satisfies `length ≥ 0` (length 0 occurs for coincident endpoints, so the
claimed strict positivity fails), `baseSpeedLimit > 0`, and
`0.5 ≤ surfaceQuality ≤ 1`. -/
theorem C5_attr_ranges (env : GenEnv) (cfg : MapGeneratorConfig)
    (hf : ∀ i, 0 ≤ env.floats i ∧ env.floats i < 1)
    (hwv : ∀ wv, cfg.weightVariation = some wv →
      (0 ≤ wv.curvatureMin ∧ wv.curvatureMin ≤ wv.curvatureMax) ∧
      (0 ≤ wv.speedVariation ∧ wv.speedVariation < 1)) :
    ∀ p ∈ (Generate env cfg).edges,
      0 ≤ p.2.length ∧ 0 < p.2.baseSpeedLimit ∧
      1 / 2 ≤ p.2.surfaceQuality ∧ p.2.surfaceQuality ≤ 1 := by
  intro p hp
  rcases Generate_cases env cfg with h | ⟨g1, hinv, h | ⟨wv, hwvs, h⟩⟩
  · rw [h] at hp
    exact absurd hp (List.not_mem_nil p)
  · rw [h] at hp
    exact GenEdgeInv_ranges (hinv p hp)
  · rw [h] at hp
    exact applyWeightVariation_ranges hf (hwv wv hwvs).1 (hwv wv hwvs).2
      (fun q hq => GenEdgeInv_ranges (hinv q hq)) p hp

/-- C5 witness: the amended range theorem instantiated at the `a->b` edge of
the two-node KNN run without weight variation. -/
theorem C5_witness :
    (∀ i, 0 ≤ envTwoA.floats i ∧ envTwoA.floats i < 1) ∧
    ("a->b", eAB) ∈ (Generate envTwoA cfgKNN2).edges ∧
    (0 ≤ eAB.length ∧ 0 < eAB.baseSpeedLimit ∧
      1 / 2 ≤ eAB.surfaceQuality ∧ eAB.surfaceQuality ≤ 1) := by
  have hf : ∀ i, 0 ≤ envTwoA.floats i ∧ envTwoA.floats i < 1 := by
    intro i
    constructor <;> norm_num [envTwoA]
  exact ⟨hf, eAB_mem,
    C5_attr_ranges envTwoA cfgKNN2 hf
      (fun wv h => absurd h (by simp [cfgKNN2])) ("a->b", eAB) eAB_mem⟩

/-- A predicate preserved by every step of a fold is preserved by the fold. -/
theorem foldl_pres {α β : Type} (Q : β → Prop) (f : β → α → β)
    (h : ∀ b a, Q b → Q (f b a)) :
    ∀ (l : List α) (b : β), Q b → Q (l.foldl f b) := by
  intro l
  induction l with
  | nil =>
    intro b hb
    exact hb
  | cons a rest ih =>
    intro b hb
    rw [List.foldl_cons]
    exact ih (f b a) (h b a hb)

theorem countP_unvis_snoc_le (keys vis : List String) (nb : String) :
    keys.countP (fun x => decide (¬ x ∈ vis ++ [nb])) ≤
      keys.countP (fun x => decide (¬ x ∈ vis)) := by
  induction keys with
  | nil => exact le_refl 0
  | cons a ks ih =>
    rw [List.countP_cons, List.countP_cons]
    have hstep : (if (decide (¬ a ∈ vis ++ [nb])) = true then 1 else 0) ≤
        (if (decide (¬ a ∈ vis)) = true then 1 else 0) := by
      by_cases hm : a ∈ vis
      · simp [hm]
      · by_cases hb : a = nb
        · simp [hm, hb]
        · simp [hm, hb]
    omega

theorem countP_unvis_snoc_lt {keys vis : List String} {nb : String}
    (hk : nb ∈ keys) (hv : ¬ nb ∈ vis) :
    keys.countP (fun x => decide (¬ x ∈ vis ++ [nb])) <
      keys.countP (fun x => decide (¬ x ∈ vis)) := by
  induction keys with
  | nil => cases hk
  | cons a ks ih =>
    rw [List.countP_cons, List.countP_cons]
    by_cases hb : a = nb
    · have h1 := countP_unvis_snoc_le ks vis nb
      have h2 : (decide (¬ a ∈ vis ++ [nb])) = false := by
        simp [hb]
      have h3 : (decide (¬ a ∈ vis)) = true := by
        rw [hb]
        simp [hv]
      rw [h2, h3]
      simp only [Bool.false_eq_true, if_false, if_true]
      omega
    · have hk2 : nb ∈ ks := by
        rcases List.mem_cons.mp hk with h | h
        · exact absurd h.symm hb
        · exact h
      have ih2 := ih hk2
      have hstep : (if (decide (¬ a ∈ vis ++ [nb])) = true then 1 else 0) =
          (if (decide (¬ a ∈ vis)) = true then 1 else 0) := by
        by_cases hm : a ∈ vis
        · simp [hm]
        · simp [hm, hb]
      omega

theorem unvisitedCount_snoc_le (nodes : List (String × MapNode)) (vis : List String)
    (nb : String) : unvisitedCount nodes (vis ++ [nb]) ≤ unvisitedCount nodes vis :=
  countP_unvis_snoc_le _ _ _

theorem unvisitedCount_snoc_lt {nodes : List (String × MapNode)} {vis : List String}
    {nb : String} (hk : nb ∈ nodes.map Prod.fst) (hv : ¬ nb ∈ vis) :
    unvisitedCount nodes (vis ++ [nb]) < unvisitedCount nodes vis :=
  countP_unvis_snoc_lt hk hv

/-- Membership facts of the BFS neighbour scan. -/
theorem bfsFold_spec : ∀ (l q0 v0 : List String),
    (∀ x ∈ q0, x ∈ (l.foldl bfsEnqueue (q0, v0)).1) ∧
    (∀ x ∈ v0, x ∈ (l.foldl bfsEnqueue (q0, v0)).2) ∧
    (∀ x ∈ (l.foldl bfsEnqueue (q0, v0)).1, x ∈ q0 ∨ x ∈ l) ∧
    (∀ x ∈ (l.foldl bfsEnqueue (q0, v0)).2, x ∈ v0 ∨ x ∈ (l.foldl bfsEnqueue (q0, v0)).1) ∧
    (∀ x ∈ l, x ∈ (l.foldl bfsEnqueue (q0, v0)).2) ∧
    ((∀ x ∈ q0, x ∈ v0) → ∀ x ∈ (l.foldl bfsEnqueue (q0, v0)).1,
      x ∈ (l.foldl bfsEnqueue (q0, v0)).2) := by
  intro l
  induction l with
  | nil =>
    intro q0 v0
    exact ⟨fun x h => h, fun x h => h, fun x h => Or.inl h, fun x h => Or.inl h,
      fun x h => absurd h (List.not_mem_nil x), fun h x hx => h x hx⟩
  | cons nb l2 ih =>
    intro q0 v0
    rw [List.foldl_cons, bfsEnqueue]
    by_cases hm : nb ∈ v0
    · rw [if_pos hm]
      obtain ⟨f1, f2, f3, f4, f5, f6⟩ := ih q0 v0
      refine ⟨f1, f2, ?_, f4, ?_, f6⟩
      · intro x hx
        rcases f3 x hx with h | h
        · exact Or.inl h
        · exact Or.inr (List.mem_cons_of_mem nb h)
      · intro x hx
        rcases List.mem_cons.mp hx with h | h
        · rw [h]
          exact f2 nb hm
        · exact f5 x h
    · rw [if_neg hm]
      obtain ⟨f1, f2, f3, f4, f5, f6⟩ := ih (q0 ++ [nb]) (v0 ++ [nb])
      refine ⟨?_, ?_, ?_, ?_, ?_, ?_⟩
      · intro x hx
        exact f1 x (List.mem_append_left _ hx)
      · intro x hx
        exact f2 x (List.mem_append_left _ hx)
      · intro x hx
        rcases f3 x hx with h | h
        · rcases List.mem_append.mp h with h2 | h2
          · exact Or.inl h2
          · exact Or.inr (List.mem_cons.mpr (Or.inl (List.mem_singleton.mp h2)))
        · exact Or.inr (List.mem_cons_of_mem nb h)
      · intro x hx
        rcases f4 x hx with h | h
        · rcases List.mem_append.mp h with h2 | h2
          · exact Or.inl h2
          · exact Or.inr (f1 x (List.mem_append_right _ h2))
        · exact Or.inr h
      · intro x hx
        rcases List.mem_cons.mp hx with h | h
        · rw [h]
          exact f2 nb (List.mem_append_right _ (List.mem_singleton.mpr rfl))
        · exact f5 x h
      · intro hqv x hx
        refine f6 ?_ x hx
        intro y hy
        rcases List.mem_append.mp hy with h | h
        · exact List.mem_append_left _ (hqv y h)
        · exact List.mem_append_right _ h

/-- The fuel measure does not grow across the neighbour scan. -/
theorem bfsFold_len (nodes : List (String × MapNode)) :
    ∀ (l q0 v0 : List String), (∀ x ∈ l, x ∈ nodes.map Prod.fst) →
      (l.foldl bfsEnqueue (q0, v0)).1.length +
          2 * unvisitedCount nodes (l.foldl bfsEnqueue (q0, v0)).2 ≤
        q0.length + 2 * unvisitedCount nodes v0 := by
  intro l
  induction l with
  | nil =>
    intro q0 v0 _
    exact le_refl _
  | cons nb l2 ih =>
    intro q0 v0 hk
    simp only [List.foldl_cons, bfsEnqueue]
    by_cases hm : nb ∈ v0
    · rw [if_pos hm]
      exact ih q0 v0 (fun x hx => hk x (List.mem_cons_of_mem nb hx))
    · rw [if_neg hm]
      have h1 := ih (q0 ++ [nb]) (v0 ++ [nb])
        (fun x hx => hk x (List.mem_cons_of_mem nb hx))
      have h2 : unvisitedCount nodes (v0 ++ [nb]) < unvisitedCount nodes v0 :=
        unvisitedCount_snoc_lt (hk nb (List.mem_cons_self nb l2)) hm
      have h3 : (q0 ++ [nb]).length = q0.length + 1 := by
        rw [List.length_append]
        rfl
      omega

/-- The BFS master lemma: with enough fuel, a queue inside the visited set and
a visited set whose non-pending members are adjacency-closed, the BFS (i)
keeps, (ii) extends and (iii) drains its inputs, (iv) adds to the component
only strings with any property `P` that holds on the queue and is closed under
adjacency, (v) adds to the visited set only component members, and (vi) leaves
the final visited set adjacency-closed. -/
theorem bfs_spec {nodes : List (String × MapNode)} (P : String → Prop)
    (hPstep : ∀ u v, P u → StepConn nodes u v → P v)
    (hclosed : ∀ u v, StepConn nodes u v → v ∈ nodes.map Prod.fst) :
    ∀ (fuel : Nat) (queue comp visited : List String),
      (∀ q ∈ queue, q ∈ visited) →
      (∀ u ∈ visited, u ∈ queue ∨ ∀ v, StepConn nodes u v → v ∈ visited) →
      (∀ q ∈ queue, P q) →
      queue.length + 2 * unvisitedCount nodes visited < fuel →
      (∀ x ∈ visited, x ∈ (bfs nodes fuel queue comp visited).2) ∧
      (∀ x ∈ comp, x ∈ (bfs nodes fuel queue comp visited).1) ∧
      (∀ q ∈ queue, q ∈ (bfs nodes fuel queue comp visited).1) ∧
      (∀ x ∈ (bfs nodes fuel queue comp visited).1, x ∈ comp ∨ P x) ∧
      (∀ x ∈ (bfs nodes fuel queue comp visited).2,
        x ∈ visited ∨ x ∈ (bfs nodes fuel queue comp visited).1) ∧
      (∀ u ∈ (bfs nodes fuel queue comp visited).2, ∀ v, StepConn nodes u v →
        v ∈ (bfs nodes fuel queue comp visited).2) := by
  intro fuel
  induction fuel with
  | zero =>
    intro queue comp visited _ _ _ hlen
    exact absurd hlen (Nat.not_lt_zero _)
  | succ fuel ih =>
    intro queue comp visited h1 h4 hP hlen
    cases queue with
    | nil =>
      simp only [bfs]
      refine ⟨fun x h => h, fun x h => h, fun q hq => absurd hq (List.not_mem_nil q),
        fun x hx => Or.inl hx, fun x hx => Or.inl hx, ?_⟩
      intro u hu v hsv
      rcases h4 u hu with h | h
      · exact absurd h (List.not_mem_nil u)
      · exact h v hsv
    | cons current rest =>
      simp only [bfs]
      set st := (((mapGet nodes current).elim [] fun n => n.connections.map Prod.fst).foldl
        bfsEnqueue (rest, visited)) with hst
      have hnb : ∀ x ∈ ((mapGet nodes current).elim [] fun n => n.connections.map Prod.fst),
          StepConn nodes current x := fun x hx => hx
      obtain ⟨f1, f2, f3, f4, f5, f6⟩ :=
        bfsFold_spec ((mapGet nodes current).elim [] fun n => n.connections.map Prod.fst)
          rest visited
      rw [← hst] at f1 f2 f3 f4 f5 f6
      have hPcur : P current := hP current (List.mem_cons_self current rest)
      have hq' : ∀ q ∈ st.1, q ∈ st.2 :=
        f6 (fun x hx => h1 x (List.mem_cons_of_mem current hx))
      have h4' : ∀ u ∈ st.2, u ∈ st.1 ∨ ∀ v, StepConn nodes u v → v ∈ st.2 := by
        intro u hu
        rcases f4 u hu with h | h
        · rcases h4 u h with h2 | h2
          · rcases List.mem_cons.mp h2 with h3 | h3
            · subst h3
              refine Or.inr ?_
              intro v hsv
              exact f5 v hsv
            · exact Or.inl (f1 u h3)
          · refine Or.inr ?_
            intro v hsv
            exact f2 v (h2 v hsv)
        · exact Or.inl h
      have hP' : ∀ q ∈ st.1, P q := by
        intro q hq
        rcases f3 q hq with h | h
        · exact hP q (List.mem_cons_of_mem current h)
        · exact hPstep current q hPcur h
      have hlen' : st.1.length + 2 * unvisitedCount nodes st.2 < fuel := by
        have hfl := bfsFold_len nodes
          ((mapGet nodes current).elim [] fun n => n.connections.map Prod.fst)
          rest visited (fun x hx => hclosed current x (hnb x hx))
        rw [← hst] at hfl
        simp only [List.length_cons] at hlen
        omega
      obtain ⟨b1, b2, b3, b4, b5, b6⟩ := ih st.1 (comp ++ [current]) st.2 hq' h4' hP' hlen'
      refine ⟨?_, ?_, ?_, ?_, ?_, b6⟩
      · intro x hx
        exact b1 x (f2 x hx)
      · intro x hx
        exact b2 x (List.mem_append_left _ hx)
      · intro q hq
        rcases List.mem_cons.mp hq with h | h
        · rw [h]
          exact b2 current (List.mem_append_right _ (List.mem_singleton.mpr rfl))
        · exact b3 q (f1 q h)
      · intro x hx
        rcases b4 x hx with h | h
        · rcases List.mem_append.mp h with h2 | h2
          · exact Or.inl h2
          · rw [List.mem_singleton.mp h2]
            exact Or.inr hPcur
        · exact Or.inr h
      · intro x hx
        rcases b5 x hx with h | h
        · rcases f4 x h with h2 | h2
          · exact Or.inl h2
          · exact Or.inr (b3 x h2)
        · exact Or.inr h

/-- An adjacency-closed set that holds a root holds everything the root
reaches. -/
theorem reach_mem_closed {nodes : List (String × MapNode)} {vis : List String}
    (hcl : ∀ u ∈ vis, ∀ v, StepConn nodes u v → v ∈ vis) {root : String}
    (hroot : root ∈ vis) : ∀ {x}, Reach nodes root x → x ∈ vis := by
  intro x h
  induction h with
  | refl => exact hroot
  | tail h1 h2 ih => exact hcl _ ih _ h2

/-- A component as the BFS records it: rooted at a node key and made of node
keys reachable from the root. -/
def CompGood (nodes : List (String × MapNode)) (c : List String) : Prop :=
  ∃ root, root ∈ nodes.map Prod.fst ∧ root ∈ c ∧
    ∀ x ∈ c, Reach nodes root x ∧ x ∈ nodes.map Prod.fst

/-- The outer-loop invariant of `findConnectedComponents`: every visited key
lies in a recorded component, and the visited set is adjacency-closed. -/
def FccInv (nodes : List (String × MapNode))
    (st : List (List String) × List String) : Prop :=
  (∀ v ∈ st.2, ∃ c, c ∈ st.1 ∧ v ∈ c) ∧
  (∀ u ∈ st.2, ∀ v, StepConn nodes u v → v ∈ st.2)

theorem fccStep_spec {nodes : List (String × MapNode)}
    (hclosed : ∀ u v, StepConn nodes u v → v ∈ nodes.map Prod.fst)
    {st : List (List String) × List String} {p : String × MapNode}
    (hp : p.1 ∈ nodes.map Prod.fst) (hinv : FccInv nodes st) :
    FccInv nodes (fccStep nodes st p) ∧
    (∀ c ∈ (fccStep nodes st p).1, c ∈ st.1 ∨ CompGood nodes c) ∧
    p.1 ∈ (fccStep nodes st p).2 ∧
    (∀ v ∈ st.2, v ∈ (fccStep nodes st p).2) := by
  rw [fccStep]
  by_cases hm : p.1 ∈ st.2
  · rw [if_pos hm]
    exact ⟨hinv, fun c hc => Or.inl hc, hm, fun v hv => hv⟩
  · rw [if_neg hm]
    simp only []
    obtain ⟨b1, b2, b3, b4, b5, b6⟩ :=
      bfs_spec (fun x => Reach nodes p.1 x ∧ x ∈ nodes.map Prod.fst)
        (fun u v hu hs => ⟨Relation.ReflTransGen.tail hu.1 hs, hclosed u v hs⟩)
        hclosed (2 * nodes.length + 2) [p.1] [] (st.2 ++ [p.1])
        (fun q hq => List.mem_append_right _ hq)
        (by
          intro u hu
          rcases List.mem_append.mp hu with h | h
          · refine Or.inr ?_
            intro v hsv
            exact List.mem_append_left _ (hinv.2 u h v hsv)
          · exact Or.inl h)
        (fun q hq => by
          rw [List.mem_singleton.mp hq]
          exact ⟨Relation.ReflTransGen.refl, hp⟩)
        (by
          have hU : unvisitedCount nodes (st.2 ++ [p.1]) ≤ nodes.length := by
            have h1 := List.countP_le_length
              (fun x => decide (¬ x ∈ st.2 ++ [p.1])) (l := nodes.map Prod.fst)
            rw [List.length_map] at h1
            exact h1
          simp only [List.length_singleton]
          omega)
    refine ⟨⟨?_, b6⟩, ?_, ?_, ?_⟩
    · intro v hv
      rcases b5 v hv with h | h
      · rcases List.mem_append.mp h with h2 | h2
        · obtain ⟨c, hc, hvc⟩ := hinv.1 v h2
          exact ⟨c, List.mem_append_left _ hc, hvc⟩
        · refine ⟨_, List.mem_append_right _ (List.mem_singleton.mpr rfl), ?_⟩
          rw [List.mem_singleton.mp h2]
          exact b3 p.1 (List.mem_singleton.mpr rfl)
      · exact ⟨_, List.mem_append_right _ (List.mem_singleton.mpr rfl), h⟩
    · intro c hc
      rcases List.mem_append.mp hc with h | h
      · exact Or.inl h
      · refine Or.inr ?_
        rw [List.mem_singleton.mp h]
        refine ⟨p.1, hp, b3 p.1 (List.mem_singleton.mpr rfl), ?_⟩
        intro x hx
        rcases b4 x hx with h2 | h2
        · exact absurd h2 (List.not_mem_nil x)
        · exact h2
    · exact b1 p.1 (List.mem_append_right _ (List.mem_singleton.mpr rfl))
    · intro v hv
      exact b1 v (List.mem_append_left _ hv)

theorem fccFold_spec {nodes : List (String × MapNode)}
    (hclosed : ∀ u v, StepConn nodes u v → v ∈ nodes.map Prod.fst) :
    ∀ (l : List (String × MapNode)), (∀ p ∈ l, p.1 ∈ nodes.map Prod.fst) →
      ∀ st, FccInv nodes st →
      FccInv nodes (l.foldl (fccStep nodes) st) ∧
      (∀ c ∈ (l.foldl (fccStep nodes) st).1, c ∈ st.1 ∨ CompGood nodes c) ∧
      (∀ p ∈ l, p.1 ∈ (l.foldl (fccStep nodes) st).2) ∧
      (∀ v ∈ st.2, v ∈ (l.foldl (fccStep nodes) st).2) := by
  intro l
  induction l with
  | nil =>
    intro _ st hinv
    exact ⟨hinv, fun c hc => Or.inl hc, fun p hp => absurd hp (List.not_mem_nil p),
      fun v hv => hv⟩
  | cons p l2 ih =>
    intro hl st hinv
    rw [List.foldl_cons]
    obtain ⟨s1, s2, s3, s4⟩ := fccStep_spec hclosed
      (hl p (List.mem_cons_self p l2)) hinv
    obtain ⟨i1, i2, i3, i4⟩ := ih (fun q hq => hl q (List.mem_cons_of_mem p hq))
      (fccStep nodes st p) s1
    refine ⟨i1, ?_, ?_, ?_⟩
    · intro c hc
      rcases i2 c hc with h | h
      · rcases s2 c h with h2 | h2
        · exact Or.inl h2
        · exact Or.inr h2
      · exact Or.inr h
    · intro q hq
      rcases List.mem_cons.mp hq with h | h
      · rw [h]
        exact i4 p.1 s3
      · exact i3 q h
    · intro v hv
      exact i4 v (s4 v hv)

theorem findCC_spec {g : MapGraph}
    (hclosed : ∀ u v, StepConn g.nodes u v → v ∈ g.nodes.map Prod.fst) :
    (∀ c ∈ findConnectedComponents g, CompGood g.nodes c) ∧
    (∀ k ∈ g.nodes.map Prod.fst, ∃ c, c ∈ findConnectedComponents g ∧ k ∈ c) := by
  obtain ⟨i1, i2, i3, i4⟩ := fccFold_spec hclosed g.nodes
    (fun p hp => List.mem_map.mpr ⟨p, hp, rfl⟩) ([], [])
    ⟨fun v hv => absurd hv (List.not_mem_nil v),
     fun u hu => absurd hu (List.not_mem_nil u)⟩
  rw [findConnectedComponents]
  constructor
  · intro c hc
    rcases i2 c hc with h | h
    · exact absurd h (List.not_mem_nil c)
    · exact h
  · intro k hk
    obtain ⟨p, hp, hpk⟩ := List.mem_map.mp hk
    rw [← hpk]
    exact i1.1 p.1 (i3 p hp)

theorem fccFold_skip {nodes : List (String × MapNode)} :
    ∀ (l : List (String × MapNode)) (st : List (List String) × List String),
      (∀ p ∈ l, p.1 ∈ st.2) → l.foldl (fccStep nodes) st = st := by
  intro l
  induction l with
  | nil =>
    intro st _
    rfl
  | cons p l2 ih =>
    intro st hl
    rw [List.foldl_cons, fccStep, if_pos (hl p (List.mem_cons_self p l2))]
    exact ih st (fun q hq => hl q (List.mem_cons_of_mem p hq))

/-- A nonempty node map whose keys are all reachable from the first key has a
single connected component. -/
theorem findCC_single {g : MapGraph}
    (hclosed : ∀ u v, StepConn g.nodes u v → v ∈ g.nodes.map Prod.fst)
    {p0 : String × MapNode} {rest : List (String × MapNode)}
    (hns : g.nodes = p0 :: rest)
    (hreach : ∀ k ∈ g.nodes.map Prod.fst, Reach g.nodes p0.1 k) :
    (findConnectedComponents g).length = 1 := by
  rw [findConnectedComponents]
  have hfold : g.nodes.foldl (fccStep g.nodes) ([], []) =
      (p0 :: rest).foldl (fccStep g.nodes) ([], []) := by
    rw [← hns]
  rw [hfold, List.foldl_cons, fccStep, if_neg (List.not_mem_nil p0.1)]
  simp only []
  obtain ⟨b1, b2, b3, b4, b5, b6⟩ :=
    bfs_spec (fun _ => True) (fun _ _ _ _ => trivial) hclosed
      (2 * g.nodes.length + 2) [p0.1] [] ([] ++ [p0.1])
      (fun q hq => hq)
      (by
        intro u hu
        rcases List.mem_append.mp hu with h | h
        · exact absurd h (List.not_mem_nil u)
        · exact Or.inl h)
      (fun _ _ => trivial)
      (by
        have h1 := List.countP_le_length
          (fun x => decide (¬ x ∈ ([] : List String) ++ [p0.1])) (l := g.nodes.map Prod.fst)
        rw [List.length_map] at h1
        have h2 : unvisitedCount g.nodes ([] ++ [p0.1]) ≤ g.nodes.length := h1
        simp only [List.length_singleton]
        omega)
  have hp01 : p0.1 ∈ (bfs g.nodes (2 * g.nodes.length + 2) [p0.1] []
      ([] ++ [p0.1])).2 :=
    b1 p0.1 (List.mem_append_right _ (List.mem_singleton.mpr rfl))
  have hcov : ∀ q ∈ rest, q.1 ∈ (bfs g.nodes (2 * g.nodes.length + 2) [p0.1] []
      ([] ++ [p0.1])).2 := by
    intro q hq
    have hk : q.1 ∈ g.nodes.map Prod.fst := by
      rw [hns]
      exact List.mem_map.mpr ⟨q, List.mem_cons_of_mem p0 hq, rfl⟩
    exact reach_mem_closed b6 hp01 (hreach q.1 hk)
  rw [fccFold_skip rest _ hcov]
  rfl

/-- A graph with at least one node has at least one component. -/
theorem findCC_length_pos {g : MapGraph} {p0 : String × MapNode}
    {rest : List (String × MapNode)} (hns : g.nodes = p0 :: rest) :
    1 ≤ (findConnectedComponents g).length := by
  rw [findConnectedComponents]
  have hfold : g.nodes.foldl (fccStep g.nodes) ([], []) =
      (p0 :: rest).foldl (fccStep g.nodes) ([], []) := by
    rw [← hns]
  rw [hfold, List.foldl_cons, fccStep, if_neg (List.not_mem_nil p0.1)]
  simp only []
  refine foldl_pres
    (fun st : List (List String) × List String => 1 ≤ st.1.length) _ ?_ rest _ ?_
  · intro st p hst
    rw [fccStep]
    by_cases hm : p.1 ∈ st.2
    · rw [if_pos hm]
      exact hst
    · rw [if_neg hm]
      simp only [List.length_append, List.length_singleton]
      omega
  · exact le_refl 1

end FleetSim
